import Mathlib

/-!
Prime factorisation benchmarks: trial division, optimised trial division,
Pollard's rho.

A shallow embedding of the three C programs of `perf-test/prime_fac`
(`prime_naive.c`, `prime_optimized.c`, `prime_pollard.c`) and the proofs of
their contract.

Conventions of the embedding.

* `unsigned long long` values are natural numbers; every operation that can
  leave the 64-bit range in C (a sum, a product) is followed by `% 2 ^ 64`.
  Division and remainder stay in range, and the one subtraction of the code
  is guarded by a comparison.
* Every C loop and every recursive C function is a Lean function by structural
  recursion on a first argument `fuel`, the number of loop tests (or calls)
  still allowed.  The answer `none` means that the fuel ran out before the code
  returned, or that the code divided by zero (undefined in C).  A loop that
  calls another loop hands it the fuel that is left.
* Standard output is the list of the factors printed so far, in printing
  order: `printf("%llu ", i)` is `out ++ [i]`.  The text of the output is
  built from that list (`factorsText`), between the text of the other calls
  of `printf`; the text that `%f` gives the timing value is a parameter.
* Where a claim speaks of every step of a loop, the loop has a second
  embedding that returns the list of the states it goes through
  (`naiveTrace`, `optimizedTrace`); `factorizeDepth` is `factorize` with the
  depth of its recursion as a further result.
* `i <= sqrt(n)`, a comparison of an integer with a `double`, is read as
  `i * i ≤ n` over the natural numbers.
* `rand()` is a stream `rnd : Nat → Nat` together with the number `k` of values
  already drawn; a call returns `rnd k` and leaves `k + 1`.
-/

namespace PrimeFac

/-! ## `prime_naive.c` -/

/-- The loop `while (n % i == 0) { printf("%llu ", i); n /= i; }` shared by both
trial-division programs: returns the residual and the output when the loop is
left.  A zero divisor has no result. -/
def divideOut : Nat → Nat → Nat → List Nat → Option (Nat × List Nat)
  | 0, _, _, _ => none
  | fuel + 1, i, n, out =>
    if i = 0 then none
    else if n % i = 0 then divideOut fuel i (n / i) (out ++ [i])
    else some (n, out)

/-- The loop `for (i = 2; i <= n; i++) { while (n % i == 0) ... }` of
`prime_naive.c`, entered at candidate `i` with residual `n`. -/
def naiveLoop : Nat → Nat → Nat → List Nat → Option (List Nat)
  | 0, _, _, _ => none
  | fuel + 1, i, n, out =>
    if i ≤ n then
      match divideOut fuel i n out with
      | none => none
      | some (n1, out1) => naiveLoop fuel ((i + 1) % 2 ^ 64) n1 out1
    else some out

/-- The factors printed by `prime_naive.c` on input `N`. -/
def prime_naive (fuel N : Nat) : Option (List Nat) :=
  naiveLoop fuel 2 N []

/-! ## `prime_optimized.c` -/

/-- The loop `while(n % 2 == 0) { printf("2 "); n /= 2; }`. -/
def evenLoop : Nat → Nat → List Nat → Option (Nat × List Nat)
  | 0, _, _ => none
  | fuel + 1, n, out =>
    if n % 2 = 0 then evenLoop fuel (n / 2) (out ++ [2])
    else some (n, out)

/-- The loop `for(i = 3; i <= sqrt(n); i += 2) { while(n % i == 0) ... }`,
entered at candidate `i` with residual `n`; returns the residual and the
output when the loop is left. -/
def oddLoop : Nat → Nat → Nat → List Nat → Option (Nat × List Nat)
  | 0, _, _, _ => none
  | fuel + 1, i, n, out =>
    if i * i ≤ n then
      match divideOut fuel i n out with
      | none => none
      | some (n1, out1) => oddLoop fuel ((i + 2) % 2 ^ 64) n1 out1
    else some (n, out)

/-- The factors printed by `prime_optimized.c` on input `N`: the even loop, the
odd loop, then `if(n > 2) printf("%llu ", n);`. -/
def prime_optimized (fuel N : Nat) : Option (List Nat) :=
  match evenLoop fuel N [] with
  | none => none
  | some (n1, out1) =>
    match oddLoop fuel 3 n1 out1 with
    | none => none
    | some (n2, out2) => some (if n2 > 2 then out2 ++ [n2] else out2)

/-! ## `prime_pollard.c` -/

/-- The function `gcd`: `while(b != 0) { t = b; b = a % b; a = t; } return a;`. -/
def gcd : Nat → Nat → Nat → Option Nat
  | 0, _, _ => none
  | fuel + 1, a, b =>
    if b ≠ 0 then gcd fuel b (a % b)
    else some a

/-- The function `f`: `return ((x * x) % mod + c) % mod;` in 64-bit unsigned
arithmetic.  It is only called with an odd `mod`. -/
def f (x c mod : Nat) : Nat :=
  ((x * x) % 2 ^ 64 % mod + c) % 2 ^ 64 % mod

mutual
/-- The function `pollard_rho`: returns the divisor and the number of random
values drawn so far. -/
def pollard_rho (fuel : Nat) (rnd : Nat → Nat) (k n : Nat) : Option (Nat × Nat) :=
  match fuel with
  | 0 => none
  | fuel + 1 =>
    if n % 2 = 0 then some (2, k)
    else
      let x := rnd k % n
      let y := x
      let c := rnd (k + 1) % n
      rhoLoop fuel rnd (k + 2) n x y c
termination_by structural fuel
/-- The loop `while(d == 1)` of `pollard_rho`, entered with `d = 1`. -/
def rhoLoop (fuel : Nat) (rnd : Nat → Nat) (k n x y c : Nat) : Option (Nat × Nat) :=
  match fuel with
  | 0 => none
  | fuel + 1 =>
    let x1 := f x c n
    let y1 := f (f y c n) c n
    match gcd fuel (if x1 > y1 then x1 - y1 else y1 - x1) n with
    | none => none
    | some d =>
      if d = n then pollard_rho fuel rnd k n
      else if d = 1 then rhoLoop fuel rnd k n x1 y1 c
      else some (d, k)
termination_by structural fuel
end

/-- The primality loop of `factorize`:
`for(i = 2; i <= sqrt(n); i++) if(n % i == 0) { isPrime = 0; break; }`,
entered at candidate `i`; returns the final value of `isPrime`. -/
def isPrimeLoop : Nat → Nat → Nat → Option Bool
  | 0, _, _ => none
  | fuel + 1, i, n =>
    if i * i ≤ n then
      if i = 0 then none
      else if n % i = 0 then some false
      else isPrimeLoop fuel ((i + 1) % 2 ^ 64) n
    else some true

/-- The function `factorize`: returns the output and the number of random
values drawn so far. -/
def factorize : Nat → (Nat → Nat) → Nat → Nat → List Nat → Option (List Nat × Nat)
  | 0, _, _, _, _ => none
  | fuel + 1, rnd, k, n, out =>
    if n = 1 then some (out, k)
    else
      match isPrimeLoop fuel 2 n with
      | none => none
      | some true => some (out ++ [n], k)
      | some false =>
        match pollard_rho fuel rnd k n with
        | none => none
        | some (divisor, k1) =>
          if divisor = 0 then none
          else
            match factorize fuel rnd k1 divisor out with
            | none => none
            | some (out1, k2) => factorize fuel rnd k2 (n / divisor) out1

/-- The factors printed by `prime_pollard.c` on input `N`, the random stream
being `rnd`. -/
def prime_pollard (fuel : Nat) (rnd : Nat → Nat) (N : Nat) : Option (List Nat) :=
  (factorize fuel rnd 0 N []).map Prod.fst


/-- A random stream used in the worked examples: 2, 1, 2, 1, ... -/
def rndTwoOne : Nat → Nat := fun k => if k % 2 = 0 then 2 else 1

/-- A random stream used in the worked examples: 2000000000, then 1 for ever. -/
def rndLarge : Nat → Nat := fun k => if k = 0 then 2000000000 else 1

/-! ## Instrumented runs -/

/-- The states (residual, output) at the successive tests of the loop
`while (n % i == 0) { printf("%llu ", i); n /= i; }`. -/
def divideOutTrace : Nat → Nat → Nat → List Nat → List (Nat × List Nat)
  | 0, _, _, _ => []
  | fuel + 1, i, n, out =>
    (n, out) ::
      (if i = 0 then []
       else if n % i = 0 then divideOutTrace fuel i (n / i) (out ++ [i])
       else [])

/-- The states (residual, output) met by the loop of `prime_naive.c`: the state
at each test `i <= n`, followed by the states of the inner loop. -/
def naiveTrace : Nat → Nat → Nat → List Nat → List (Nat × List Nat)
  | 0, _, _, _ => []
  | fuel + 1, i, n, out =>
    (n, out) ::
      (if i ≤ n then
        divideOutTrace fuel i n out ++
          (match divideOut fuel i n out with
           | none => []
           | some (n1, out1) => naiveTrace fuel ((i + 1) % 2 ^ 64) n1 out1)
       else [])

/-- The states (residual, output) at the successive tests of the loop
`while(n % 2 == 0) { printf("2 "); n /= 2; }`. -/
def evenTrace : Nat → Nat → List Nat → List (Nat × List Nat)
  | 0, _, _ => []
  | fuel + 1, n, out =>
    (n, out) :: (if n % 2 = 0 then evenTrace fuel (n / 2) (out ++ [2]) else [])

/-- The states (residual, output) met by the odd-candidate loop of
`prime_optimized.c`: the state at each test `i <= sqrt(n)`, followed by the
states of the inner loop.  The state at the test that leaves the loop is the
one the final check `if(n > 2)` sees. -/
def oddTrace : Nat → Nat → Nat → List Nat → List (Nat × List Nat)
  | 0, _, _, _ => []
  | fuel + 1, i, n, out =>
    (n, out) ::
      (if i * i ≤ n then
        divideOutTrace fuel i n out ++
          (match divideOut fuel i n out with
           | none => []
           | some (n1, out1) => oddTrace fuel ((i + 2) % 2 ^ 64) n1 out1)
       else [])

/-- The states (residual, output) met by `prime_optimized.c` on input `N`, up
to the final check. -/
def optimizedTrace (fuel N : Nat) : List (Nat × List Nat) :=
  evenTrace fuel N [] ++
    (match evenLoop fuel N [] with
     | none => []
     | some (n1, out1) => oddTrace fuel 3 n1 out1)

/-- The function `factorize` with a third result: the largest number of calls
of `factorize` nested in one another during the call, the call itself
counted. -/
def factorizeDepth : Nat → (Nat → Nat) → Nat → Nat → List Nat → Option (List Nat × Nat × Nat)
  | 0, _, _, _, _ => none
  | fuel + 1, rnd, k, n, out =>
    if n = 1 then some (out, k, 1)
    else
      match isPrimeLoop fuel 2 n with
      | none => none
      | some true => some (out ++ [n], k, 1)
      | some false =>
        match pollard_rho fuel rnd k n with
        | none => none
        | some (divisor, k1) =>
          if divisor = 0 then none
          else
            match factorizeDepth fuel rnd k1 divisor out with
            | none => none
            | some (out1, k2, d1) =>
              match factorizeDepth fuel rnd k2 (n / divisor) out1 with
              | none => none
              | some (out2, k3, d2) => some (out2, k3, 1 + max d1 d2)

/-- The value of `d` after pass `m` of the loop `while(d == 1)` of
`pollard_rho` entered with `x` and `y`: `gcd(|x_m - y_m|, n)`, where `x_m` is
`x` after `m` applications of `f` and `y_m` is `y` after `2 * m`. -/
def rhoD (n c x y m : Nat) : Nat :=
  Nat.gcd
    (if (fun v => f v c n)^[m] x > (fun v => f v c n)^[2 * m] y
      then (fun v => f v c n)^[m] x - (fun v => f v c n)^[2 * m] y
      else (fun v => f v c n)^[2 * m] y - (fun v => f v c n)^[m] x) n

/-! ## Standard output as text -/

/-- The text of `printf("%llu ", i)`: the decimal digits of `i`, then a space. -/
def printFactor (i : Nat) : String :=
  toString i ++ " "

/-- The text of the calls `printf("%llu ", i)` recorded in an output, in
order (`printf("2 ")` is the same text as `printf("%llu ", 2)`). -/
def factorsText : List Nat → String
  | [] => ""
  | i :: rest => printFactor i ++ factorsText rest

/-- The text of `printf("Prime factors of %llu: ", orig)`. -/
def headerText (N : Nat) : String :=
  "Prime factors of " ++ toString N ++ ": "

/-- Standard output of `prime_naive.c`: the header, the factors, then
`printf("\n")`. -/
def naive_stdout (fuel N : Nat) : Option String :=
  (prime_naive fuel N).map fun out => headerText N ++ factorsText out ++ "\n"

/-- Standard output of `prime_optimized.c`: the header, the factors, then
`printf("\n")`. -/
def optimized_stdout (fuel N : Nat) : Option String :=
  (prime_optimized fuel N).map fun out => headerText N ++ factorsText out ++ "\n"

/-- Standard output of `prime_pollard.c`: the header, the factors printed by
`factorize`, then `printf("%f\n", ts)` and `printf("\n")`, where `ts` stands
for the text that `%f` gives the timing value. -/
def pollard_stdout (fuel : Nat) (rnd : Nat → Nat) (N : Nat) (ts : String) : Option String :=
  (prime_pollard fuel rnd N).map fun out => headerText N ++ factorsText out ++ ts ++ "\n" ++ "\n"

/-- The factors with exactly one space between consecutive factors, as the
specification words the factor list. -/
def specFactorsText : List Nat → String
  | [] => ""
  | [i] => toString i
  | i :: j :: rest => toString i ++ " " ++ specFactorsText (j :: rest)

/-- The text the specification words for the trial-division programs: the
header, the factors separated by single spaces, a newline, nothing else. -/
def specTrialText (N : Nat) (out : List Nat) : String :=
  headerText N ++ specFactorsText out ++ "\n"

/-- The text the specification words for the Pollard's-rho program: the factor
line, a newline, the timing value on its own line, then the blank line. -/
def specPollardText (N : Nat) (out : List Nat) (ts : String) : String :=
  headerText N ++ factorsText out ++ "\n" ++ ts ++ "\n" ++ "\n"

/-! ## Trial division -/

theorem divideOut_spec (i : Nat) (hi : 2 ≤ i) :
    ∀ n : Nat, 1 ≤ n → ∀ out : List Nat, ∃ n1 m f0,
      (∀ fuel, f0 ≤ fuel → divideOut fuel i n out = some (n1, out ++ List.replicate m i)) ∧
      n = n1 * i ^ m ∧ ¬ i ∣ n1 ∧ 1 ≤ n1 := by
  intro n
  induction n using Nat.strong_induction_on with
  | _ n ih =>
    intro hn out
    by_cases hd : n % i = 0
    · have hlt : n / i < n := Nat.div_lt_self (by omega) (by omega)
      have hpos : 1 ≤ n / i :=
        Nat.div_pos (Nat.le_of_dvd (by omega) (Nat.dvd_of_mod_eq_zero hd)) (by omega)
      obtain ⟨n1, m, f0, hrun, heq, hnd, h1⟩ := ih (n / i) hlt hpos (out ++ [i])
      refine ⟨n1, m + 1, f0 + 1, ?_, ?_, hnd, h1⟩
      · intro fuel hf
        obtain ⟨g, rfl⟩ : ∃ g, fuel = g + 1 := ⟨fuel - 1, by omega⟩
        simp [divideOut, show i ≠ 0 by omega, hd, hrun g (by omega), List.replicate_succ]
      · have h := Nat.div_mul_cancel (Nat.dvd_of_mod_eq_zero hd)
        rw [pow_succ, ← mul_assoc, ← heq]
        exact h.symm
    · refine ⟨n, 0, 1, ?_, by simp, ?_, hn⟩
      · intro fuel hf
        obtain ⟨g, rfl⟩ : ∃ g, fuel = g + 1 := ⟨fuel - 1, by omega⟩
        simp [divideOut, show i ≠ 0 by omega, hd]
      · intro h
        exact hd (Nat.mod_eq_zero_of_dvd h)

/-- A candidate that divides a number all of whose prime factors are at least
the candidate is the least prime factor of that number. -/
theorem minFac_eq_of_least (i n : Nat) (hi : 2 ≤ i) (hdvd : i ∣ n)
    (hmin : ∀ p, p.Prime → p ∣ n → i ≤ p) : n.minFac = i := by
  have hn1 : n ≠ 1 := by
    rintro rfl
    have := Nat.le_of_dvd one_pos hdvd
    omega
  have h1 : n.minFac ≤ i := Nat.minFac_le_of_dvd hi hdvd
  have h2 : i ≤ n.minFac := hmin _ (Nat.minFac_prime hn1) (Nat.minFac_dvd n)
  omega

theorem primeFactorsList_mul_pow (i : Nat) (hi : 2 ≤ i) :
    ∀ (m n1 : Nat), 1 ≤ n1 → (∀ p, p.Prime → p ∣ n1 * i ^ m → i ≤ p) →
      (n1 * i ^ m).primeFactorsList = List.replicate m i ++ n1.primeFactorsList := by
  intro m
  induction m with
  | zero => intro n1 _ _; simp
  | succ m ih =>
    intro n1 hn1 hmin
    have hdvd : i ∣ n1 * i ^ (m + 1) := Dvd.intro_left (n1 * i ^ m) (by rw [pow_succ, mul_assoc])
    have hmf := minFac_eq_of_least i _ hi hdvd hmin
    have hpos : 1 ≤ i ^ (m + 1) := Nat.one_le_pow _ _ (by omega)
    have hge : 2 ≤ n1 * i ^ (m + 1) := by
      have hle : i ≤ n1 * i ^ (m + 1) := Nat.le_of_dvd (Nat.mul_pos hn1 hpos) hdvd
      omega
    obtain ⟨t, ht⟩ : ∃ t, n1 * i ^ (m + 1) = t + 2 := ⟨n1 * i ^ (m + 1) - 2, by omega⟩
    have hdiv : n1 * i ^ (m + 1) / i = n1 * i ^ m := by
      rw [pow_succ, ← mul_assoc]
      exact Nat.mul_div_cancel _ (by omega)
    have hrec := Nat.primeFactorsList_add_two t
    rw [← ht, hmf, hdiv] at hrec
    rw [hrec, ih n1 hn1 (fun p hp hpd => hmin p hp (Dvd.dvd.trans hpd ?_)), List.replicate_succ]
    · rfl
    · exact ⟨i, by rw [pow_succ, mul_assoc]⟩

/-- A number at least 1 with no prime factor is 1. -/
theorem eq_one_of_no_prime_le (i n : Nat) (hn : 1 ≤ n) (hlt : n < i)
    (hmin : ∀ p, p.Prime → p ∣ n → i ≤ p) : n = 1 := by
  by_contra hne
  have hp := Nat.minFac_prime hne
  have h1 := hmin _ hp (Nat.minFac_dvd n)
  have h2 := Nat.minFac_le (show 0 < n by omega)
  omega

/-- A number whose prime factors all have a square above it is 1 or prime. -/
theorem prime_of_sq_gt (i n : Nat) (hn : 1 ≤ n) (hlt : n < i * i)
    (hmin : ∀ p, p.Prime → p ∣ n → i ≤ p) : n = 1 ∨ n.Prime := by
  by_cases hne : n = 1
  · exact Or.inl hne
  · right
    by_contra hnp
    have hp := Nat.minFac_prime hne
    have h1 := hmin _ hp (Nat.minFac_dvd n)
    have h2 := Nat.minFac_sq_le_self (show 0 < n by omega) hnp
    have h3 : i * i ≤ n.minFac * n.minFac := Nat.mul_le_mul h1 h1
    rw [sq] at h2
    omega

theorem three_dvd_max : 3 ∣ 2 ^ 64 - 1 := by decide

/-- What one pass of the body of a trial-division loop leaves: the residual has
lost every factor `i`, and its prime factors are above `i`. -/
theorem divideOut_step (i n : Nat) (hi : 2 ≤ i) (hn : 1 ≤ n)
    (hmin : ∀ p, p.Prime → p ∣ n → i ≤ p) (out : List Nat) :
    ∃ n1 out1 f0, (∀ fuel, f0 ≤ fuel → divideOut fuel i n out = some (n1, out1)) ∧
      out1 ++ n1.primeFactorsList = out ++ n.primeFactorsList ∧
      1 ≤ n1 ∧ n1 ∣ n ∧ (∀ p, p.Prime → p ∣ n1 → i + 1 ≤ p) := by
  obtain ⟨n1, m, f0, hrun, heq, hnd, h1⟩ := divideOut_spec i hi n hn out
  have hdvd : n1 ∣ n := ⟨i ^ m, heq⟩
  refine ⟨n1, out ++ List.replicate m i, f0, hrun, ?_, h1, hdvd, ?_⟩
  · rw [heq, primeFactorsList_mul_pow i hi m n1 h1 (by rw [← heq]; exact hmin), List.append_assoc]
  · intro p hp hpd
    have h2 := hmin p hp (hpd.trans hdvd)
    have h3 : p ≠ i := by
      rintro rfl
      exact hnd hpd
    omega

theorem naiveLoop_spec : ∀ (d i n : Nat) (out : List Nat), n + 1 - i ≤ d → 2 ≤ i → 1 ≤ n →
    n < 2 ^ 64 → (∀ p, p.Prime → p ∣ n → i ≤ p) →
    ∃ f0, ∀ fuel, f0 ≤ fuel → naiveLoop fuel i n out = some (out ++ n.primeFactorsList) := by
  intro d
  induction d with
  | zero =>
    intro i n out hd hi hn hN hmin
    have h1 : n = 1 := eq_one_of_no_prime_le i n hn (by omega) hmin
    subst h1
    refine ⟨1, fun fuel hf => ?_⟩
    obtain ⟨g, rfl⟩ : ∃ g, fuel = g + 1 := ⟨fuel - 1, by omega⟩
    simp [naiveLoop, show ¬ i ≤ 1 by omega]
  | succ d ih =>
    intro i n out hd hi hn hN hmin
    by_cases hle : i ≤ n
    · have hi2 : i + 1 < 2 ^ 64 := by
        by_contra hc
        have hin : n = 2 ^ 64 - 1 := by omega
        have := hmin 3 Nat.prime_three (hin ▸ three_dvd_max)
        omega
      obtain ⟨n1, out1, f0, hrun, hout, h1, hdvd, hmin1⟩ := divideOut_step i n hi hn hmin out
      have hn1 : n1 ≤ n := Nat.le_of_dvd (by omega) hdvd
      obtain ⟨f1, hrun1⟩ := ih (i + 1) n1 out1 (by omega) (by omega) h1 (by omega) hmin1
      refine ⟨max f0 f1 + 1, fun fuel hf => ?_⟩
      obtain ⟨g, rfl⟩ : ∃ g, fuel = g + 1 := ⟨fuel - 1, by omega⟩
      have hg0 : f0 ≤ g := by omega
      have hg1 : f1 ≤ g := by omega
      rw [naiveLoop, if_pos hle, hrun g hg0]
      simp only []
      rw [Nat.mod_eq_of_lt hi2, hrun1 g hg1, hout]
    · have h1 : n = 1 := eq_one_of_no_prime_le i n hn (by omega) hmin
      subst h1
      refine ⟨1, fun fuel hf => ?_⟩
      obtain ⟨g, rfl⟩ : ∃ g, fuel = g + 1 := ⟨fuel - 1, by omega⟩
      simp [naiveLoop, hle]

/-- On an input from 1 to 2^64 - 1, `prime_naive.c` returns, and prints the
prime factors in non-decreasing order. -/
theorem prime_naive_eq (N : Nat) (h1 : 1 ≤ N) (hN : N < 2 ^ 64) :
    ∃ f0, ∀ fuel, f0 ≤ fuel → prime_naive fuel N = some N.primeFactorsList := by
  obtain ⟨f0, h⟩ := naiveLoop_spec (N + 1 - 2) 2 N [] le_rfl le_rfl h1 hN
    (fun p hp _ => hp.two_le)
  exact ⟨f0, fun fuel hf => by simpa [prime_naive] using h fuel hf⟩

theorem evenLoop_eq_divideOut : ∀ (fuel n : Nat) (out : List Nat),
    evenLoop fuel n out = divideOut fuel 2 n out := by
  intro fuel
  induction fuel with
  | zero => intro n out; rfl
  | succ g ih =>
    intro n out
    rw [evenLoop, divideOut, ih]
    simp

theorem oddLoop_spec : ∀ (d i n : Nat) (out : List Nat), n + 1 - i ≤ d → 3 ≤ i → i % 2 = 1 →
    1 ≤ n → n % 2 = 1 → n < 2 ^ 64 → (∀ p, p.Prime → p ∣ n → i ≤ p) →
    ∃ n2 out2 f0, (∀ fuel, f0 ≤ fuel → oddLoop fuel i n out = some (n2, out2)) ∧
      out2 ++ n2.primeFactorsList = out ++ n.primeFactorsList ∧
      n2 % 2 = 1 ∧ (n2 = 1 ∨ n2.Prime) ∧ n2 ∣ n := by
  intro d
  induction d with
  | zero =>
    intro i n out hd hi hodd hn hnodd hN hmin
    have h3 : 3 * i ≤ i * i := Nat.mul_le_mul_right i hi
    have hlt : n < i * i := by omega
    refine ⟨n, out, 1, fun fuel hf => ?_, rfl, hnodd, prime_of_sq_gt i n hn hlt hmin, dvd_rfl⟩
    obtain ⟨g, rfl⟩ : ∃ g, fuel = g + 1 := ⟨fuel - 1, by omega⟩
    rw [oddLoop, if_neg (by omega)]
  | succ d ih =>
    intro i n out hd hi hodd hn hnodd hN hmin
    by_cases hle : i * i ≤ n
    · have h3 : 3 * i ≤ i * i := Nat.mul_le_mul_right i hi
      have hi2 : i + 2 < 2 ^ 64 := by omega
      obtain ⟨n1, out1, f0, hrun, hout, h1, hdvd, hmin1⟩ :=
        divideOut_step i n (by omega) hn hmin out
      have hn1 : n1 ≤ n := Nat.le_of_dvd (by omega) hdvd
      have hn1odd : n1 % 2 = 1 := by
        by_contra hc
        have h2 : 2 ∣ n := (Nat.dvd_of_mod_eq_zero (by omega : n1 % 2 = 0)).trans hdvd
        omega
      have hmin2 : ∀ p, p.Prime → p ∣ n1 → i + 2 ≤ p := by
        intro p hp hpd
        have h4 := hmin1 p hp hpd
        have h5 : p ≠ i + 1 := by
          rintro rfl
          have h2 : 2 ∣ n1 := (Nat.dvd_of_mod_eq_zero (by omega : (i + 1) % 2 = 0)).trans hpd
          omega
        omega
      obtain ⟨n2, out2, f1, hrun1, hout1, hodd2, hpr, hdvd2⟩ :=
        ih (i + 2) n1 out1 (by omega) (by omega) (by omega) h1 hn1odd (by omega) hmin2
      refine ⟨n2, out2, max f0 f1 + 1, fun fuel hf => ?_, by rw [hout1, hout], hodd2, hpr,
        hdvd2.trans hdvd⟩
      obtain ⟨g, rfl⟩ : ∃ g, fuel = g + 1 := ⟨fuel - 1, by omega⟩
      have hg0 : f0 ≤ g := by omega
      have hg1 : f1 ≤ g := by omega
      rw [oddLoop, if_pos hle, hrun g hg0]
      simp only []
      rw [Nat.mod_eq_of_lt hi2, hrun1 g hg1]
    · refine ⟨n, out, 1, fun fuel hf => ?_, rfl, hnodd,
        prime_of_sq_gt i n hn (by omega) hmin, dvd_rfl⟩
      obtain ⟨g, rfl⟩ : ∃ g, fuel = g + 1 := ⟨fuel - 1, by omega⟩
      rw [oddLoop, if_neg hle]

/-- On an input from 1 to 2^64 - 1, `prime_optimized.c` returns, and prints the
prime factors in non-decreasing order. -/
theorem prime_optimized_eq (N : Nat) (h1 : 1 ≤ N) (hN : N < 2 ^ 64) :
    ∃ f0, ∀ fuel, f0 ≤ fuel → prime_optimized fuel N = some N.primeFactorsList := by
  obtain ⟨n1, out1, f0, hrun, hout, hn1, hdvd, hmin1⟩ :=
    divideOut_step 2 N le_rfl h1 (fun p hp _ => hp.two_le) []
  have hle : n1 ≤ N := Nat.le_of_dvd (by omega) hdvd
  have hodd : n1 % 2 = 1 := by
    by_contra hc
    have := hmin1 2 Nat.prime_two (Nat.dvd_of_mod_eq_zero (by omega))
    omega
  obtain ⟨n2, out2, f1, hrun1, hout1, hodd2, hpr, -⟩ :=
    oddLoop_spec (n1 + 1 - 3) 3 n1 out1 le_rfl le_rfl (by decide) hn1 hodd (by omega) hmin1
  refine ⟨max f0 f1, fun fuel hf => ?_⟩
  have hg0 : f0 ≤ fuel := by omega
  have hg1 : f1 ≤ fuel := by omega
  have hlast : (if n2 > 2 then out2 ++ [n2] else out2) = out2 ++ n2.primeFactorsList := by
    rcases hpr with rfl | hp
    · simp
    · have := hp.two_le
      rw [if_pos (by omega), Nat.primeFactorsList_prime hp]
  rw [prime_optimized, evenLoop_eq_divideOut, hrun fuel hg0]
  simp only []
  rw [hrun1 fuel hg1]
  simp only []
  rw [hlast, hout1, hout, List.nil_append]

/-! ## Pollard's rho -/

theorem gcd_eq : ∀ (fuel a b g : Nat), gcd fuel a b = some g → g = Nat.gcd a b := by
  intro fuel
  induction fuel with
  | zero => intro a b g h; simp [gcd] at h
  | succ t ih =>
    intro a b g h
    rw [gcd] at h
    split at h
    · rw [ih _ _ _ h, Nat.gcd_comm a b, Nat.gcd_rec b a, Nat.gcd_comm]
    · have hb : b = 0 := by simpa using ‹¬ b ≠ 0›
      simp only [Option.some.injEq] at h
      rw [← h, hb, Nat.gcd_zero_right]

/-- What `pollard_rho` and its loop return, when they return: 2 on an even
argument, and otherwise a divisor that is neither 1 nor the argument. -/
theorem rho_post : ∀ fuel : Nat,
    (∀ rnd k n d k1, pollard_rho fuel rnd k n = some (d, k1) →
      (n % 2 = 0 ∧ d = 2) ∨ (d ∣ n ∧ d ≠ 1 ∧ d ≠ n)) ∧
    (∀ rnd k n x y c d k1, rhoLoop fuel rnd k n x y c = some (d, k1) →
      (n % 2 = 0 ∧ d = 2) ∨ (d ∣ n ∧ d ≠ 1 ∧ d ≠ n)) := by
  intro fuel
  induction fuel with
  | zero =>
    constructor
    · intro rnd k n d k1 h
      simp [pollard_rho] at h
    · intro rnd k n x y c d k1 h
      simp [rhoLoop] at h
  | succ t ih =>
    obtain ⟨ih1, ih2⟩ := ih
    constructor
    · intro rnd k n d k1 h
      rw [pollard_rho] at h
      split at h
      · rename_i heven
        simp only [Option.some.injEq, Prod.mk.injEq] at h
        exact Or.inl ⟨heven, h.1.symm⟩
      · exact ih2 _ _ _ _ _ _ _ _ h
    · intro rnd k n x y c d k1 h
      rw [rhoLoop] at h
      split at h
      · simp at h
      · rename_i d0 hg
        have hd0 := gcd_eq _ _ _ _ hg
        split at h
        · exact ih1 _ _ _ _ _ h
        · rename_i hne
          split at h
          · exact ih2 _ _ _ _ _ _ _ _ h
          · rename_i hne1
            simp only [Option.some.injEq, Prod.mk.injEq] at h
            obtain ⟨rfl, -⟩ := h
            exact Or.inr ⟨hd0 ▸ Nat.gcd_dvd_right _ _, hne1, hne⟩

/-- A returned divisor of a composite number is a proper divisor. -/
theorem rho_proper (fuel : Nat) (rnd : Nat → Nat) (k n d k1 : Nat) (h1 : 1 < n)
    (hnp : ¬ n.Prime) (h : pollard_rho fuel rnd k n = some (d, k1)) :
    d ∣ n ∧ 1 < d ∧ d < n := by
  rcases (rho_post fuel).1 rnd k n d k1 h with ⟨heven, rfl⟩ | ⟨hdvd, hd1, hdn⟩
  · have hn2 : n ≠ 2 := by
      rintro rfl
      exact hnp Nat.prime_two
    exact ⟨Nat.dvd_of_mod_eq_zero heven, by omega, by omega⟩
  · have hle : d ≤ n := Nat.le_of_dvd (by omega) hdvd
    have hd0 : d ≠ 0 := by
      rintro rfl
      have := Nat.eq_zero_of_zero_dvd hdvd
      omega
    exact ⟨hdvd, by omega, by omega⟩

/-- The primality loop answers whether its argument is prime. -/
theorem isPrimeLoop_spec : ∀ (fuel i n : Nat) (b : Bool), isPrimeLoop fuel i n = some b →
    2 ≤ i → 2 ≤ n → n < 2 ^ 64 → (∀ j, 2 ≤ j → j < i → ¬ j ∣ n) → (b = true ↔ n.Prime) := by
  intro fuel
  induction fuel with
  | zero => intro i n b h; simp [isPrimeLoop] at h
  | succ t ih =>
    intro i n b h hi hn hN hfree
    rw [isPrimeLoop] at h
    have h2 : 2 * i ≤ i * i := Nat.mul_le_mul_right i hi
    split at h
    · rename_i hle
      rw [if_neg (by omega)] at h
      split at h
      · rename_i hdiv
        simp only [Option.some.injEq] at h
        subst h
        simp only [Bool.false_eq_true, false_iff]
        intro hp
        rcases (Nat.dvd_prime hp).1 (Nat.dvd_of_mod_eq_zero hdiv) with h1 | h1 <;> omega
      · rename_i hdiv
        rw [Nat.mod_eq_of_lt (by omega)] at h
        refine ih (i + 1) n b h (by omega) hn hN (fun j hj hlt hjd => ?_)
        by_cases hji : j = i
        · subst hji
          exact hdiv (Nat.mod_eq_zero_of_dvd hjd)
        · exact hfree j hj (by omega) hjd
    · rename_i hgt
      simp only [Option.some.injEq] at h
      subst h
      simp only [true_iff]
      have hmin : ∀ p, p.Prime → p ∣ n → i ≤ p := by
        intro p hp hpd
        by_contra hc
        exact hfree p hp.two_le (by omega) hpd
      rcases prime_of_sq_gt i n (by omega) (by omega) hmin with h1 | h1
      · omega
      · exact h1

/-- Every returning call of `factorize` on a value from 1 to 2^64 - 1 appends
to the output a list of primes whose product is the value. -/
theorem factorize_post : ∀ (fuel : Nat) (rnd : Nat → Nat) (k n : Nat) (out out1 : List Nat)
    (k1 : Nat), 1 ≤ n → n < 2 ^ 64 → factorize fuel rnd k n out = some (out1, k1) →
    ∃ l : List Nat, out1 = out ++ l ∧ l.prod = n ∧ ∀ p ∈ l, p.Prime := by
  intro fuel
  induction fuel with
  | zero => intro rnd k n out out1 k1 _ _ h; simp [factorize] at h
  | succ t ih =>
    intro rnd k n out out1 k1 hn hN h
    rw [factorize] at h
    split at h
    · rename_i h1
      simp only [Option.some.injEq, Prod.mk.injEq] at h
      exact ⟨[], by simp [h.1], by simp [h1], by simp⟩
    · rename_i hne
      split at h
      · simp at h
      · rename_i hpl
        have hp := (isPrimeLoop_spec t 2 n true hpl le_rfl (by omega) hN
          (fun j hj hlt => by omega)).1 rfl
        simp only [Option.some.injEq, Prod.mk.injEq] at h
        exact ⟨[n], h.1.symm, by simp, by simpa using hp⟩
      · rename_i hpl
        have hnp : ¬ n.Prime := fun hp =>
          Bool.false_ne_true ((isPrimeLoop_spec t 2 n false hpl le_rfl (by omega) hN
            (fun j hj hlt => by omega)).2 hp)
        split at h
        · simp at h
        · rename_i d k2 hrho
          obtain ⟨hdvd, hd1, hdn⟩ := rho_proper t rnd k n d k2 (by omega) hnp hrho
          rw [if_neg (by omega)] at h
          split at h
          · simp at h
          · rename_i out2 k3 hfd
            obtain ⟨l1, hl1, hprod1, hpr1⟩ := ih rnd k2 d out out2 k3 (by omega) (by omega) hfd
            have hq : 1 ≤ n / d := Nat.div_pos (by omega) (by omega)
            have hq2 : n / d ≤ n := Nat.div_le_self n d
            obtain ⟨l2, hl2, hprod2, hpr2⟩ :=
              ih rnd k3 (n / d) out2 out1 k1 hq (by omega) h
            refine ⟨l1 ++ l2, by rw [hl2, hl1, List.append_assoc], ?_, ?_⟩
            · rw [List.prod_append, hprod1, hprod2, Nat.mul_div_cancel' hdvd]
            · intro p hp
              rcases List.mem_append.1 hp with hm | hm
              · exact hpr1 p hm
              · exact hpr2 p hm

/-- A non-decreasing list of primes is the list of prime factors of its
product. -/
theorem primeFactorsList_eq_of_sorted (n : Nat) (l : List Nat) (hprod : l.prod = n)
    (hpr : ∀ p ∈ l, p.Prime) (hs : l.Sorted (· ≤ ·)) : n.primeFactorsList = l :=
  (List.eq_of_perm_of_sorted (Nat.primeFactorsList_unique hprod hpr) hs
    (Nat.primeFactorsList_sorted n)).symm

theorem primeFactorsList_euler : (600851475143 : Nat).primeFactorsList = [71, 839, 1471, 6857] := by
  apply primeFactorsList_eq_of_sorted
  · norm_num
  · intro p hp
    simp only [List.mem_cons, List.mem_singleton, List.not_mem_nil, or_false] at hp
    rcases hp with rfl | rfl | rfl | rfl <;> norm_num
  · simp

theorem primeFactorsList_360 : (360 : Nat).primeFactorsList = [2, 2, 2, 3, 3, 5] := by
  apply primeFactorsList_eq_of_sorted
  · norm_num
  · intro p hp
    simp only [List.mem_cons, List.mem_singleton, List.not_mem_nil, or_false] at hp
    rcases hp with rfl | rfl | rfl | rfl | rfl | rfl <;> norm_num
  · simp

/-- `f` is the quadratic map modulo `n` as long as no intermediate value
reaches 2^64: it is enough that `v < 2^32` and `n ≤ 2^63`. -/
theorem f_eq_quadratic_of_small (v c n : Nat) (hv : v < 2 ^ 32) (hc : c < n)
    (hn : n ≤ 2 ^ 63) : f v c n = (v ^ 2 + c) % n := by
  have hvv : v * v < 2 ^ 64 := by
    by_cases hv0 : v = 0
    · subst hv0
      norm_num
    · have h2 : v * v < 2 ^ 32 * v := Nat.mul_lt_mul_of_pos_right hv (by omega)
      have h3 : 2 ^ 32 * v < 2 ^ 32 * 2 ^ 32 := Nat.mul_lt_mul_of_pos_left hv (by norm_num)
      have h4 : (2 : Nat) ^ 32 * 2 ^ 32 = 2 ^ 64 := by norm_num
      omega
  have hlt : v * v % n < n := Nat.mod_lt _ (by omega)
  rw [f, Nat.mod_eq_of_lt hvv, Nat.mod_eq_of_lt (by omega : v * v % n + c < 2 ^ 64), sq,
    Nat.add_mod, Nat.mod_mod, ← Nat.add_mod]

/-! ## The contract -/

/-- Claim C1. For every `N` with `1 < N < 2^64`, every random stream and every
amount of fuel, a call of `factorize` on `N` that returns has appended to the
output a list of factors whose product is `N` and whose members are all prime
(`i <= sqrt(n)` read as `i * i ≤ n`). -/
theorem factorize_correct (N : Nat) (h1 : 1 < N) (hN : N < 2 ^ 64) (fuel : Nat)
    (rnd : Nat → Nat) (k : Nat) (out0 out : List Nat) (k1 : Nat)
    (hrun : factorize fuel rnd k N out0 = some (out, k1)) :
    ∃ l : List Nat, out = out0 ++ l ∧ l.prod = N ∧ ∀ p ∈ l, p.Prime :=
  factorize_post fuel rnd k N out0 out k1 (by omega) hN hrun

/-- Witness of C1: the run of `factorize` on 360 with the stream 2, 1, 2, 1, ...
returns after four draws, and printed 2 2 2 3 3 5. -/
theorem factorize_correct_witness :
    factorize 12 rndTwoOne 0 360 [] = some ([2, 2, 2, 3, 3, 5], 4) ∧
      ∃ l : List Nat, [2, 2, 2, 3, 3, 5] = [] ++ l ∧ l.prod = 360 ∧ ∀ p ∈ l, p.Prime :=
  ⟨by decide, factorize_correct 360 (by decide) (by decide) 12 rndTwoOne 0 [] [2, 2, 2, 3, 3, 5] 4
    (by decide)⟩

/-- Claim C2. For every `N` with `1 < N < 2^64` the program `prime_naive`
returns (with every large enough fuel), the product of the printed factors is
`N`, every printed factor is prime, and on 600851475143 the printed factors are
71 839 1471 6857. -/
theorem prime_naive_correct (N : Nat) (h1 : 1 < N) (hN : N < 2 ^ 64) :
    ∃ (l : List Nat) (f0 : Nat), (∀ fuel, f0 ≤ fuel → prime_naive fuel N = some l) ∧
      l.prod = N ∧ (∀ p ∈ l, p.Prime) ∧ (N = 600851475143 → l = [71, 839, 1471, 6857]) := by
  obtain ⟨f0, h⟩ := prime_naive_eq N (by omega) hN
  refine ⟨N.primeFactorsList, f0, h, Nat.prod_primeFactorsList (by omega),
    fun p hp => Nat.prime_of_mem_primeFactorsList hp, ?_⟩
  rintro rfl
  exact primeFactorsList_euler

/-- Witness of C2: on 600851475143 `prime_naive` prints 71 839 1471 6857. -/
theorem prime_naive_correct_witness :
    ∃ f0, ∀ fuel, f0 ≤ fuel → prime_naive fuel 600851475143 = some [71, 839, 1471, 6857] := by
  obtain ⟨l, f0, h, -, -, hl⟩ := prime_naive_correct 600851475143 (by decide) (by decide)
  exact ⟨f0, fun fuel hf => hl rfl ▸ h fuel hf⟩

/-- Claim C3. For every `N` with `1 < N < 2^64` the program `prime_optimized`
returns (with every large enough fuel), the product of the printed factors (the
2s, the odd divisors and the final residual when printed) is `N`, and every
printed factor is prime (`i <= sqrt(n)` read as `i * i ≤ n`). -/
theorem prime_optimized_correct (N : Nat) (h1 : 1 < N) (hN : N < 2 ^ 64) :
    ∃ (l : List Nat) (f0 : Nat), (∀ fuel, f0 ≤ fuel → prime_optimized fuel N = some l) ∧
      l.prod = N ∧ ∀ p ∈ l, p.Prime := by
  obtain ⟨f0, h⟩ := prime_optimized_eq N (by omega) hN
  exact ⟨N.primeFactorsList, f0, h, Nat.prod_primeFactorsList (by omega),
    fun p hp => Nat.prime_of_mem_primeFactorsList hp⟩

/-- Witness of C3, at 600851475143, with the run itself at 360. -/
theorem prime_optimized_correct_witness :
    prime_optimized 10 360 = some [2, 2, 2, 3, 3, 5] ∧
      ∃ (l : List Nat) (f0 : Nat),
        (∀ fuel, f0 ≤ fuel → prime_optimized fuel 600851475143 = some l) ∧
        l.prod = 600851475143 ∧ ∀ p ∈ l, p.Prime :=
  ⟨by decide, prime_optimized_correct 600851475143 (by decide) (by decide)⟩

/-- Claim C4. For every `N` with `1 ≤ N < 2^64` the factors printed by
`prime_naive` are in non-decreasing order, and so are those printed by
`prime_optimized`, its final residual included; on 360 both print
2 2 2 3 3 5. -/
theorem trial_division_sorted (N : Nat) (h1 : 1 ≤ N) (hN : N < 2 ^ 64) :
    ∃ (l l2 : List Nat) (f0 : Nat),
      (∀ fuel, f0 ≤ fuel → prime_naive fuel N = some l ∧ prime_optimized fuel N = some l2) ∧
      l.Sorted (· ≤ ·) ∧ l2.Sorted (· ≤ ·) ∧
      (N = 360 → l = [2, 2, 2, 3, 3, 5] ∧ l2 = [2, 2, 2, 3, 3, 5]) := by
  obtain ⟨f0, h⟩ := prime_naive_eq N h1 hN
  obtain ⟨f1, h2⟩ := prime_optimized_eq N h1 hN
  refine ⟨N.primeFactorsList, N.primeFactorsList, max f0 f1,
    fun fuel hf => ⟨h fuel (by omega), h2 fuel (by omega)⟩,
    Nat.primeFactorsList_sorted N, Nat.primeFactorsList_sorted N, ?_⟩
  rintro rfl
  exact ⟨primeFactorsList_360, primeFactorsList_360⟩

/-- Witness of C4: on 360 both trial-division programs print 2 2 2 3 3 5. -/
theorem trial_division_sorted_witness :
    ∃ f0, ∀ fuel, f0 ≤ fuel → prime_naive fuel 360 = some [2, 2, 2, 3, 3, 5] ∧
      prime_optimized fuel 360 = some [2, 2, 2, 3, 3, 5] := by
  obtain ⟨l, l2, f0, h, -, -, hl⟩ := trial_division_sorted 360 (by decide) (by decide)
  obtain ⟨rfl, rfl⟩ := hl rfl
  exact ⟨f0, h⟩

/-- Claim C5. For every `N` with `1 ≤ N < 2^64`, `prime_optimized` prints the
same sequence as `prime_naive`, and every returning run of `factorize` on `N`
prints a permutation of it; on 360 the sequence is 2 2 2 3 3 5. -/
theorem cross_algorithm_agreement (N : Nat) (h1 : 1 ≤ N) (hN : N < 2 ^ 64) :
    ∃ (l : List Nat) (f0 : Nat),
      (∀ fuel, f0 ≤ fuel → prime_naive fuel N = some l ∧ prime_optimized fuel N = some l) ∧
      (∀ (fuel : Nat) (rnd : Nat → Nat) (out : List Nat),
        prime_pollard fuel rnd N = some out → out.Perm l) ∧
      (N = 360 → l = [2, 2, 2, 3, 3, 5]) := by
  obtain ⟨f0, h⟩ := prime_naive_eq N h1 hN
  obtain ⟨f1, h2⟩ := prime_optimized_eq N h1 hN
  refine ⟨N.primeFactorsList, max f0 f1,
    fun fuel hf => ⟨h fuel (by omega), h2 fuel (by omega)⟩, ?_, ?_⟩
  · intro fuel rnd out hrun
    rw [prime_pollard, Option.map_eq_some'] at hrun
    obtain ⟨⟨out1, k1⟩, hf, rfl⟩ := hrun
    obtain ⟨l, hl, hprod, hpr⟩ := factorize_post fuel rnd 0 N [] out1 k1 h1 hN hf
    rw [List.nil_append] at hl
    subst hl
    exact Nat.primeFactorsList_unique hprod hpr
  · rintro rfl
    exact primeFactorsList_360

/-- Witness of C5: on 360 the two trial-division programs print 2 2 2 3 3 5, and
the run of the Pollard's-rho program with the stream 2, 1, 2, 1, ... returns
and prints a permutation of it. -/
theorem cross_algorithm_agreement_witness :
    (∃ f0, ∀ fuel, f0 ≤ fuel → prime_naive fuel 360 = some [2, 2, 2, 3, 3, 5] ∧
      prime_optimized fuel 360 = some [2, 2, 2, 3, 3, 5]) ∧
    ∃ out, prime_pollard 12 rndTwoOne 360 = some out ∧ out.Perm [2, 2, 2, 3, 3, 5] := by
  obtain ⟨l, f0, h, hperm, hl⟩ := cross_algorithm_agreement 360 (by decide) (by decide)
  have hl2 := hl rfl
  subst hl2
  exact ⟨⟨f0, h⟩, [2, 2, 2, 3, 3, 5], by decide, hperm 12 rndTwoOne _ (by decide)⟩

/-- Claim C6. On input 1 each of the three programs returns and prints no
factor. -/
theorem empty_factorization :
    (∀ fuel, prime_naive (fuel + 1) 1 = some []) ∧
    (∀ fuel, prime_optimized (fuel + 1) 1 = some []) ∧
    (∀ fuel rnd, prime_pollard (fuel + 1) rnd 1 = some []) ∧
    (∀ fuel rnd k out, factorize (fuel + 1) rnd k 1 out = some (out, k)) := by
  refine ⟨fun fuel => ?_, fun fuel => ?_, fun fuel rnd => ?_, fun fuel rnd k out => ?_⟩
  · simp [prime_naive, naiveLoop]
  · simp [prime_optimized, evenLoop, oddLoop]
  · simp [prime_pollard, factorize]
  · simp [factorize]

/-- Claim C7 (the code departs from it). On input 0 `factorize` does not leave
the output empty: the primality loop is not entered, `isPrime` stays set, and
the value 0 itself is printed, whatever the random stream. -/
theorem factorize_zero_prints_zero :
    (∀ fuel rnd k out, factorize (fuel + 2) rnd k 0 out = some (out ++ [0], k)) ∧
    (∀ fuel rnd, prime_pollard (fuel + 2) rnd 0 = some [0]) := by
  refine ⟨fun fuel rnd k out => ?_, fun fuel rnd => ?_⟩
  · simp [factorize, isPrimeLoop]
  · simp [prime_pollard, factorize, isPrimeLoop]

/-- Claim C8. For every composite `n`, every random stream and every amount of
fuel, a value `d` returned by `pollard_rho` on `n` divides `n` and satisfies
`1 < d < n`, the 64-bit wrap-around inside `f` included. -/
theorem pollard_rho_proper_divisor (n : Nat) (h1 : 1 < n) (hnp : ¬ n.Prime) (fuel : Nat)
    (rnd : Nat → Nat) (k d k1 : Nat) (hrun : pollard_rho fuel rnd k n = some (d, k1)) :
    d ∣ n ∧ 1 < d ∧ d < n :=
  rho_proper fuel rnd k n d k1 h1 hnp hrun

/-- Witness of C8: on 2^64 - 1 with the stream 2000000000, 1, ... the first
pass of the loop computes `f (f y)` with a product above 2^64 and returns the
divisor 3; on the even number 360 the value 2 is returned. -/
theorem pollard_rho_proper_divisor_witness :
    pollard_rho 100 rndLarge 0 18446744073709551615 = some (3, 2) ∧
    2 ^ 64 ≤ f 2000000000 1 18446744073709551615 * f 2000000000 1 18446744073709551615 ∧
    (3 ∣ 18446744073709551615 ∧ 1 < 3 ∧ 3 < 18446744073709551615) ∧
    (2 ∣ 360 ∧ 1 < 2 ∧ 2 < 360) :=
  ⟨by decide, by decide,
    pollard_rho_proper_divisor 18446744073709551615 (by decide) (by norm_num) 100 rndLarge 0 3 2
      (by decide),
    pollard_rho_proper_divisor 360 (by decide) (by norm_num) 1 rndLarge 0 2 0 (by decide)⟩

/-- Claim C9 (the code departs from it). `f` is not the quadratic map modulo
`n` on the whole 64-bit range: with `v = 2^32`, `c = 0`, `n = 2^32 + 1` (so
`v < n`, `c < n`, `n < 2^64`) the product `v * v` wraps to 0 and `f` returns 0,
where `(v^2 + c) mod n` is 1.  The value `2^32` is the iterate that follows
65536 under the same `c` and `n`, so `pollard_rho` does reach it. -/
theorem f_wraps_around :
    4294967296 < 4294967297 ∧ 0 < 4294967297 ∧ 4294967297 < 2 ^ 64 ∧
    f 4294967296 0 4294967297 = 0 ∧ (4294967296 ^ 2 + 0) % 4294967297 = 1 ∧
    f 65536 0 4294967297 = 4294967296 := by
  decide

/-- Claim C10 (the code departs from it). On input 0 `prime_optimized` never
returns: each pass of the even loop finds `0 % 2 == 0`, prints one more 2 and
leaves the residual 0, so no amount of fuel is enough, whereas `prime_naive`
returns at once with an empty output. -/
theorem prime_optimized_zero_diverges :
    (∀ fuel out, evenLoop (fuel + 1) 0 out = evenLoop fuel 0 (out ++ [2])) ∧
    (∀ fuel, prime_optimized fuel 0 = none) ∧
    (∀ fuel, prime_naive (fuel + 1) 0 = some []) := by
  have hloop : ∀ fuel out, evenLoop fuel 0 out = none := by
    intro fuel
    induction fuel with
    | zero => intro out; rfl
    | succ t ih => intro out; simp [evenLoop, ih]
  refine ⟨fun fuel out => by simp [evenLoop], fun fuel => ?_, fun fuel => ?_⟩
  · simp [prime_optimized, hloop]
  · simp [prime_naive, naiveLoop]

/-! ## Termination of `gcd` and of the primality loop -/

theorem gcd_terminates : ∀ (fuel a b : Nat), b < fuel → gcd fuel a b = some (Nat.gcd a b) := by
  intro fuel
  induction fuel with
  | zero => intro a b h; omega
  | succ t ih =>
    intro a b h
    rw [gcd]
    by_cases hb : b = 0
    · subst hb
      simp
    · have hlt : a % b < b := Nat.mod_lt _ (by omega)
      rw [if_pos hb, ih b (a % b) (by omega), Nat.gcd_comm a b, Nat.gcd_rec b a, Nat.gcd_comm]

theorem isPrimeLoop_terminates : ∀ (d i n : Nat), n + 1 - i ≤ d → 2 ≤ i → n < 2 ^ 64 →
    ∃ b, ∀ fuel, d + 1 ≤ fuel → isPrimeLoop fuel i n = some b := by
  intro d
  induction d with
  | zero =>
    intro i n hd hi hN
    have h2 : 2 * i ≤ i * i := Nat.mul_le_mul_right i hi
    refine ⟨true, fun fuel hf => ?_⟩
    obtain ⟨g, rfl⟩ : ∃ g, fuel = g + 1 := ⟨fuel - 1, by omega⟩
    rw [isPrimeLoop, if_neg (by omega)]
  | succ d ih =>
    intro i n hd hi hN
    have h2 : 2 * i ≤ i * i := Nat.mul_le_mul_right i hi
    by_cases hle : i * i ≤ n
    · by_cases hdiv : n % i = 0
      · refine ⟨false, fun fuel hf => ?_⟩
        obtain ⟨g, rfl⟩ : ∃ g, fuel = g + 1 := ⟨fuel - 1, by omega⟩
        rw [isPrimeLoop, if_pos hle, if_neg (by omega), if_pos hdiv]
      · obtain ⟨b, hb⟩ := ih (i + 1) n (by omega) (by omega) hN
        refine ⟨b, fun fuel hf => ?_⟩
        obtain ⟨g, rfl⟩ : ∃ g, fuel = g + 1 := ⟨fuel - 1, by omega⟩
        rw [isPrimeLoop, if_pos hle, if_neg (by omega), if_neg hdiv,
          Nat.mod_eq_of_lt (by omega), hb g (by omega)]
    · refine ⟨true, fun fuel hf => ?_⟩
      obtain ⟨g, rfl⟩ : ∃ g, fuel = g + 1 := ⟨fuel - 1, by omega⟩
      rw [isPrimeLoop, if_neg hle]

/-- With fuel above its argument, the primality loop returns, and returns
`true` exactly on the primes. -/
theorem isPrimeLoop_total (n : Nat) (h2 : 2 ≤ n) (hN : n < 2 ^ 64) :
    ∃ b, (b = true ↔ n.Prime) ∧ ∀ fuel, n ≤ fuel → isPrimeLoop fuel 2 n = some b := by
  obtain ⟨b, hb⟩ := isPrimeLoop_terminates (n + 1 - 2) 2 n le_rfl le_rfl hN
  refine ⟨b, ?_, fun fuel hf => hb fuel (by omega)⟩
  exact isPrimeLoop_spec n 2 n b (hb n (by omega)) le_rfl h2 hN (fun j hj hlt => by omega)

/-- An odd prime is never factored: no amount of fuel lets `pollard_rho`
return on it. -/
theorem rho_none_of_prime (p : Nat) (hp : p.Prime) (hodd : p % 2 = 1) (fuel : Nat)
    (rnd : Nat → Nat) (k : Nat) : pollard_rho fuel rnd k p = none := by
  cases h : pollard_rho fuel rnd k p with
  | none => rfl
  | some r =>
    obtain ⟨d, k1⟩ := r
    rcases (rho_post fuel).1 rnd k p d k1 h with ⟨heven, -⟩ | ⟨hdvd, hd1, hdp⟩
    · omega
    · rcases (Nat.dvd_prime hp).1 hdvd with h1 | h1
      · exact absurd h1 hd1
      · exact absurd h1 hdp

/-! ## The residual invariant -/

theorem div_step_prod (i n : Nat) (out : List Nat) (h : n % i = 0) :
    n / i * (out ++ [i]).prod = n * out.prod := by
  rw [List.prod_append, List.prod_singleton, ← mul_assoc, mul_comm (n / i) out.prod,
    mul_assoc, Nat.div_mul_cancel (Nat.dvd_of_mod_eq_zero h), mul_comm]

theorem divideOut_inv : ∀ (fuel i n : Nat) (out : List Nat) (n1 : Nat) (out1 : List Nat),
    divideOut fuel i n out = some (n1, out1) → n1 * out1.prod = n * out.prod := by
  intro fuel
  induction fuel with
  | zero => intro i n out n1 out1 h; simp [divideOut] at h
  | succ t ih =>
    intro i n out n1 out1 h
    rw [divideOut] at h
    split at h
    · simp at h
    · split at h
      · rename_i hdiv
        rw [ih _ _ _ _ _ h, div_step_prod i n out hdiv]
      · simp only [Option.some.injEq, Prod.mk.injEq] at h
        rw [← h.1, ← h.2]

theorem divideOutTrace_inv : ∀ (fuel i n : Nat) (out : List Nat),
    ∀ s ∈ divideOutTrace fuel i n out, s.1 * s.2.prod = n * out.prod := by
  intro fuel
  induction fuel with
  | zero => intro i n out s hs; simp [divideOutTrace] at hs
  | succ t ih =>
    intro i n out s hs
    rw [divideOutTrace, List.mem_cons] at hs
    rcases hs with rfl | hs
    · rfl
    · split at hs
      · simp at hs
      · split at hs
        · rename_i hdiv
          rw [ih _ _ _ s hs, div_step_prod i n out hdiv]
        · simp at hs

theorem naiveTrace_inv : ∀ (fuel i n : Nat) (out : List Nat),
    ∀ s ∈ naiveTrace fuel i n out, s.1 * s.2.prod = n * out.prod := by
  intro fuel
  induction fuel with
  | zero => intro i n out s hs; simp [naiveTrace] at hs
  | succ t ih =>
    intro i n out s hs
    rw [naiveTrace, List.mem_cons] at hs
    rcases hs with rfl | hs
    · rfl
    · split at hs
      · rcases List.mem_append.1 hs with h1 | h1
        · exact divideOutTrace_inv t i n out s h1
        · split at h1
          · simp at h1
          · rename_i n1 out1 hrun
            rw [ih _ _ _ s h1, divideOut_inv t i n out n1 out1 hrun]
      · simp at hs

theorem oddLoop_inv : ∀ (fuel i n : Nat) (out : List Nat) (n2 : Nat) (out2 : List Nat),
    oddLoop fuel i n out = some (n2, out2) → n2 * out2.prod = n * out.prod := by
  intro fuel
  induction fuel with
  | zero => intro i n out n2 out2 h; simp [oddLoop] at h
  | succ t ih =>
    intro i n out n2 out2 h
    rw [oddLoop] at h
    split at h
    · split at h
      · simp at h
      · rename_i n1 out1 hrun
        rw [ih _ _ _ _ _ h, divideOut_inv t i n out n1 out1 hrun]
    · simp only [Option.some.injEq, Prod.mk.injEq] at h
      rw [← h.1, ← h.2]

theorem evenTrace_eq_divideOutTrace : ∀ (fuel n : Nat) (out : List Nat),
    evenTrace fuel n out = divideOutTrace fuel 2 n out := by
  intro fuel
  induction fuel with
  | zero => intro n out; rfl
  | succ t ih =>
    intro n out
    rw [evenTrace, divideOutTrace, ih]
    simp

theorem oddTrace_inv : ∀ (fuel i n : Nat) (out : List Nat),
    ∀ s ∈ oddTrace fuel i n out, s.1 * s.2.prod = n * out.prod := by
  intro fuel
  induction fuel with
  | zero => intro i n out s hs; simp [oddTrace] at hs
  | succ t ih =>
    intro i n out s hs
    rw [oddTrace, List.mem_cons] at hs
    rcases hs with rfl | hs
    · rfl
    · split at hs
      · rcases List.mem_append.1 hs with h1 | h1
        · exact divideOutTrace_inv t i n out s h1
        · split at h1
          · simp at h1
          · rename_i n1 out1 hrun
            rw [ih _ _ _ s h1, divideOut_inv t i n out n1 out1 hrun]
      · simp at hs

theorem optimizedTrace_inv (fuel N : Nat) :
    ∀ s ∈ optimizedTrace fuel N, s.1 * s.2.prod = N := by
  intro s hs
  rw [optimizedTrace] at hs
  rcases List.mem_append.1 hs with h1 | h1
  · rw [evenTrace_eq_divideOutTrace] at h1
    simpa using divideOutTrace_inv fuel 2 N [] s h1
  · split at h1
    · simp at h1
    · rename_i n1 out1 hrun
      rw [evenLoop_eq_divideOut] at hrun
      rw [oddTrace_inv _ _ _ _ s h1, divideOut_inv fuel 2 N [] n1 out1 hrun]
      simp

/-- The state in which a trial-division loop is left is a state of its
trace. -/
theorem oddLoop_mem_trace : ∀ (fuel i n : Nat) (out : List Nat) (r : Nat × List Nat),
    oddLoop fuel i n out = some r → r ∈ oddTrace fuel i n out := by
  intro fuel
  induction fuel with
  | zero => intro i n out r h; simp [oddLoop] at h
  | succ t ih =>
    intro i n out r h
    rw [oddLoop] at h
    rw [oddTrace]
    split at h
    · rename_i hle
      rw [if_pos hle]
      split at h
      · simp at h
      · rename_i n1 out1 hrun
        exact List.mem_cons_of_mem _ (List.mem_append_right _ (ih _ _ _ r h))
    · simp only [Option.some.injEq] at h
      rw [← h]
      exact List.mem_cons_self _ _

theorem naiveLoop_mem_trace : ∀ (fuel i n : Nat) (out l : List Nat),
    naiveLoop fuel i n out = some l → ∃ n1, (n1, l) ∈ naiveTrace fuel i n out := by
  intro fuel
  induction fuel with
  | zero => intro i n out l h; simp [naiveLoop] at h
  | succ t ih =>
    intro i n out l h
    rw [naiveLoop] at h
    rw [naiveTrace]
    split at h
    · rename_i hle
      rw [if_pos hle]
      split at h
      · simp at h
      · rename_i n1 out1 hrun
        obtain ⟨n2, hn2⟩ := ih _ _ _ l h
        exact ⟨n2, List.mem_cons_of_mem _ (List.mem_append_right _ hn2)⟩
    · simp only [Option.some.injEq] at h
      rw [← h]
      exact ⟨n, List.mem_cons_self _ _⟩

/-! ## Depth of the recursion of `factorize` -/

theorem factorizeDepth_eq : ∀ (fuel : Nat) (rnd : Nat → Nat) (k n : Nat) (out : List Nat),
    (factorizeDepth fuel rnd k n out).map (fun r => (r.1, r.2.1)) = factorize fuel rnd k n out := by
  intro fuel
  induction fuel with
  | zero => intro rnd k n out; rfl
  | succ t ih =>
    intro rnd k n out
    rw [factorizeDepth, factorize]
    split
    · rfl
    · split
      · rfl
      · rfl
      · split
        · rfl
        · rename_i d k1 hrho
          split
          · rfl
          · rw [← ih rnd k1 d out]
            cases h1 : factorizeDepth t rnd k1 d out with
            | none => rfl
            | some r1 =>
              obtain ⟨out1, k2, d1⟩ := r1
              simp only [Option.map_some']
              rw [← ih rnd k2 (n / d) out1]
              cases h2 : factorizeDepth t rnd k2 (n / d) out1 with
              | none => rfl
              | some r2 => rfl

theorem two_pow_length_le_prod : ∀ l : List Nat, (∀ p ∈ l, 2 ≤ p) → 2 ^ l.length ≤ l.prod := by
  intro l
  induction l with
  | nil => intro _; simp
  | cons a l ih =>
    intro h
    have ha : 2 ≤ a := h a (List.mem_cons_self _ _)
    have hl := ih (fun p hp => h p (List.mem_cons_of_mem _ hp))
    rw [List.length_cons, List.prod_cons, pow_succ, mul_comm]
    exact Nat.mul_le_mul ha hl

/-- Every returning call of the instrumented `factorize` on a value from 1 to
2^64 - 1 appends a list of primes whose product is the value, and nests at
most as deep as that list is long (one call when the list is empty). -/
theorem factorizeDepth_post : ∀ (fuel : Nat) (rnd : Nat → Nat) (k n : Nat) (out out1 : List Nat)
    (k1 d : Nat), 1 ≤ n → n < 2 ^ 64 → factorizeDepth fuel rnd k n out = some (out1, k1, d) →
    ∃ l : List Nat, out1 = out ++ l ∧ l.prod = n ∧ (∀ p ∈ l, p.Prime) ∧ 1 ≤ d ∧
      d ≤ max 1 l.length := by
  intro fuel
  induction fuel with
  | zero => intro rnd k n out out1 k1 d _ _ h; simp [factorizeDepth] at h
  | succ t ih =>
    intro rnd k n out out1 k1 d hn hN h
    rw [factorizeDepth] at h
    split at h
    · rename_i h1
      simp only [Option.some.injEq, Prod.mk.injEq] at h
      obtain ⟨rfl, -, rfl⟩ := h
      exact ⟨[], by simp, by simp [h1], by simp, le_rfl, by simp⟩
    · rename_i hne
      split at h
      · simp at h
      · rename_i hpl
        have hp := (isPrimeLoop_spec t 2 n true hpl le_rfl (by omega) hN
          (fun j hj hlt => by omega)).1 rfl
        simp only [Option.some.injEq, Prod.mk.injEq] at h
        obtain ⟨rfl, -, rfl⟩ := h
        exact ⟨[n], rfl, by simp, by simpa using hp, le_rfl, by simp⟩
      · rename_i hpl
        have hnp : ¬ n.Prime := fun hp =>
          Bool.false_ne_true ((isPrimeLoop_spec t 2 n false hpl le_rfl (by omega) hN
            (fun j hj hlt => by omega)).2 hp)
        split at h
        · simp at h
        · rename_i dv k2 hrho
          obtain ⟨hdvd, hd1, hdn⟩ := rho_proper t rnd k n dv k2 (by omega) hnp hrho
          rw [if_neg (by omega)] at h
          split at h
          · simp at h
          · rename_i out2 k3 d1 hfd
            split at h
            · simp at h
            · rename_i out3 k4 d2 hfq
              simp only [Option.some.injEq, Prod.mk.injEq] at h
              obtain ⟨rfl, -, rfl⟩ := h
              obtain ⟨l1, hl1, hprod1, hpr1, hd1pos, hd1le⟩ :=
                ih rnd k2 dv out out2 k3 d1 (by omega) (by omega) hfd
              have hq : 2 ≤ n / dv := by
                have hmul : dv * (n / dv) = n := Nat.mul_div_cancel' hdvd
                by_contra hc
                have hle1 : n / dv ≤ 1 := by omega
                have := Nat.mul_le_mul_left dv hle1
                omega
              have hq2 : n / dv ≤ n := Nat.div_le_self n dv
              obtain ⟨l2, hl2, hprod2, hpr2, hd2pos, hd2le⟩ :=
                ih rnd k3 (n / dv) out2 out3 k4 d2 (by omega) (by omega) hfq
              have hlen1 : 1 ≤ l1.length := by
                rcases l1 with _ | ⟨a, l1⟩
                · simp at hprod1
                  omega
                · simp
              have hlen2 : 1 ≤ l2.length := by
                rcases l2 with _ | ⟨a, l2⟩
                · simp at hprod2
                  omega
                · simp
              refine ⟨l1 ++ l2, by rw [hl2, hl1, List.append_assoc], ?_, ?_, by omega, ?_⟩
              · rw [List.prod_append, hprod1, hprod2, Nat.mul_div_cancel' hdvd]
              · intro p hp
                rcases List.mem_append.1 hp with hm | hm
                · exact hpr1 p hm
                · exact hpr2 p hm
              · rw [List.length_append]
                omega

/-! ## One attempt of the rho routine -/

theorem f_lt (x c n : Nat) (hn : 0 < n) : f x c n < n :=
  Nat.mod_lt _ hn

theorem iterate_lt (g : Nat → Nat) (n x : Nat) (hg : ∀ v, g v < n) (hx : x < n) :
    ∀ j, g^[j] x < n := by
  intro j
  cases j with
  | zero => exact hx
  | succ j =>
    rw [Function.iterate_succ_apply']
    exact hg _

/-- Once two iterates coincide, the sequence of iterates is periodic from the
first of them on. -/
theorem iterate_periodic (g : Nat → Nat) (x i L : Nat) (h : g^[i + L] x = g^[i] x) :
    ∀ q t, i ≤ t → g^[t + q * L] x = g^[t] x := by
  have hstep : ∀ t, i ≤ t → g^[t + L] x = g^[t] x := by
    intro t ht
    obtain ⟨s, rfl⟩ : ∃ s, t = s + i := ⟨t - i, by omega⟩
    rw [add_assoc, Function.iterate_add_apply, h, ← Function.iterate_add_apply]
  intro q
  induction q with
  | zero => intro t _; simp
  | succ q ih =>
    intro t ht
    rw [Nat.succ_mul, ← add_assoc, hstep (t + q * L) (by omega), ih t ht]

/-- Cycle detection: a map of `[0, n)` to itself has, for every start, an
iterate of rank `m` between 1 and `n` that equals the iterate of rank
`2 * m`. -/
theorem floyd_meet (g : Nat → Nat) (n x : Nat) (hg : ∀ v, g v < n) (hx : x < n) :
    ∃ m, 1 ≤ m ∧ m ≤ n ∧ g^[m] x = g^[2 * m] x := by
  have hcard : (Finset.range n).card < (Finset.range (n + 1)).card := by simp
  obtain ⟨a, ha, b, hb, hab, heq⟩ :=
    Finset.exists_ne_map_eq_of_card_lt_of_maps_to hcard
      (fun j _ => Finset.mem_range.2 (iterate_lt g n x hg hx j))
  have key : ∀ i j, i < j → j ≤ n → g^[i] x = g^[j] x →
      ∃ m, 1 ≤ m ∧ m ≤ n ∧ g^[m] x = g^[2 * m] x := by
    intro i j hij hjn hijeq
    obtain ⟨L, rfl⟩ : ∃ L, j = i + L := ⟨j - i, by omega⟩
    have hL : 0 < L := by omega
    have hper := iterate_periodic g x i L hijeq.symm
    have h1 : L * ((i + L) / L) + (i + L) % L = i + L := Nat.div_add_mod _ _
    have h2 : (i + L) % L < L := Nat.mod_lt _ hL
    refine ⟨((i + L) / L) * L, ?_, ?_, ?_⟩
    · rw [mul_comm]
      omega
    · rw [mul_comm]
      omega
    · rw [two_mul]
      exact (hper ((i + L) / L) ((i + L) / L * L) (by rw [mul_comm]; omega)).symm
  rw [Finset.mem_range] at ha hb
  rcases Nat.lt_or_gt_of_ne hab with hlt | hlt
  · exact key a b hlt (by omega) heq
  · exact key b a hlt (by omega) heq.symm

theorem rhoD_succ (n c x y j : Nat) :
    rhoD n c (f x c n) (f (f y c n) c n) j = rhoD n c x y (j + 1) := by
  have hx : (fun v => f v c n)^[j] (f x c n) = (fun v => f v c n)^[j + 1] x := rfl
  have hy : (fun v => f v c n)^[2 * j] (f (f y c n) c n) = (fun v => f v c n)^[2 * (j + 1)] y := by
    rw [show 2 * (j + 1) = (2 * j + 1) + 1 by ring]
    rfl
  rw [rhoD, rhoD, hx, hy]

theorem rhoD_one (n c x y : Nat) :
    rhoD n c x y 1 =
      Nat.gcd (if f x c n > f (f y c n) c n then f x c n - f (f y c n) c n
        else f (f y c n) c n - f x c n) n := rfl

/-- The loop of `pollard_rho` makes the passes whose `d` is 1 and is left at
the first pass whose `d` is not: with the value `d`, or into a new call of
`pollard_rho` when `d` is `n`. -/
theorem rhoLoop_run (rnd : Nat → Nat) (k n c : Nat) (hn : 1 < n) :
    ∀ (m x y fuel : Nat), (∀ j, 1 ≤ j → j ≤ m → rhoD n c x y j = 1) →
      rhoD n c x y (m + 1) ≠ 1 → m + 1 + n < fuel →
      rhoLoop fuel rnd k n x y c =
        if rhoD n c x y (m + 1) = n then pollard_rho (fuel - (m + 1)) rnd k n
        else some (rhoD n c x y (m + 1), k) := by
  intro m
  induction m with
  | zero =>
    intro x y fuel _ hne hf
    obtain ⟨t, rfl⟩ : ∃ t, fuel = t + 1 := ⟨fuel - 1, by omega⟩
    rw [rhoLoop, gcd_terminates t _ n (by omega)]
    simp only []
    rw [← rhoD_one]
    by_cases hdn : rhoD n c x y (0 + 1) = n
    · rw [if_pos hdn, if_pos hdn]
      rfl
    · rw [if_neg hdn, if_neg hdn, if_neg hne]
  | succ m ih =>
    intro x y fuel hone hne hf
    obtain ⟨t, rfl⟩ : ∃ t, fuel = t + 1 := ⟨fuel - 1, by omega⟩
    have h1 : rhoD n c x y 1 = 1 := hone 1 le_rfl (by omega)
    rw [rhoLoop, gcd_terminates t _ n (by omega)]
    simp only []
    rw [← rhoD_one, h1, if_neg (by omega), if_pos rfl]
    rw [ih (f x c n) (f (f y c n) c n) t
      (fun j hj hjm => by rw [rhoD_succ]; exact hone (j + 1) (by omega) (by omega))
      (by rw [rhoD_succ]; exact hne) (by omega), rhoD_succ]
    rw [show t + 1 - (m + 1 + 1) = t - (m + 1) by omega]

/-- One attempt of `pollard_rho` ends within `n` passes of its loop. -/
theorem rho_attempt (rnd : Nat → Nat) (k n c x : Nat) (hn : 1 < n) (hx : x < n) :
    ∃ m, 1 ≤ m ∧ m ≤ n ∧ rhoD n c x x m ≠ 1 ∧ (∀ j, 1 ≤ j → j < m → rhoD n c x x j = 1) ∧
      ∀ fuel, 2 * n < fuel →
        rhoLoop fuel rnd k n x x c =
          if rhoD n c x x m = n then pollard_rho (fuel - m) rnd k n
          else some (rhoD n c x x m, k) := by
  obtain ⟨m0, hm1, hmn, hmeet⟩ :=
    floyd_meet (fun v => f v c n) n x (fun v => f_lt v c n (by omega)) hx
  have hex : ∃ j, 1 ≤ j ∧ rhoD n c x x j ≠ 1 := by
    refine ⟨m0, hm1, ?_⟩
    rw [rhoD, hmeet]
    simp only [gt_iff_lt, lt_self_iff_false, if_false, Nat.sub_self, Nat.gcd_zero_left]
    omega
  classical
  have hfind := Nat.find_spec hex
  have hmin : ∀ j, j < Nat.find hex → ¬ (1 ≤ j ∧ rhoD n c x x j ≠ 1) :=
    fun j hj => Nat.find_min hex hj
  have hle : Nat.find hex ≤ m0 := Nat.find_min' hex ⟨hm1, by
    rw [rhoD, hmeet]
    simp only [gt_iff_lt, lt_self_iff_false, if_false, Nat.sub_self, Nat.gcd_zero_left]
    omega⟩
  obtain ⟨m, hm⟩ : ∃ m, Nat.find hex = m + 1 := ⟨Nat.find hex - 1, by omega⟩
  rw [hm] at hfind hmin hle
  have hone : ∀ j, 1 ≤ j → j < m + 1 → rhoD n c x x j = 1 := by
    intro j hj hlt
    by_contra hc
    exact hmin j hlt ⟨hj, hc⟩
  refine ⟨m + 1, by omega, by omega, hfind.2, hone, fun fuel hf => ?_⟩
  exact rhoLoop_run rnd k n c hn m x x fuel (fun j hj hjm => hone j hj (by omega)) hfind.2
    (by omega)

/-! ## The text of the output -/

/-- The literal `printf("2 ")` of the even loop writes what
`printf("%llu ", 2)` writes. -/
theorem printFactor_two : printFactor 2 = "2 " := by
  decide

theorem factorsText_eq_spec : ∀ l : List Nat, l ≠ [] →
    factorsText l = specFactorsText l ++ " " := by
  intro l
  induction l with
  | nil => intro h; exact absurd rfl h
  | cons i rest ih =>
    intro _
    cases rest with
    | nil => simp [factorsText, specFactorsText, printFactor]
    | cons j rest =>
      rw [factorsText, ih (by simp), specFactorsText, printFactor, String.append_assoc,
        String.append_assoc, String.append_assoc]

theorem digitChar_ne_newline : ∀ d, d < 10 → Nat.digitChar d ≠ '\n' := by
  decide

theorem toDigitsCore_no_newline : ∀ (fuel n : Nat) (ds : List Char), '\n' ∉ ds →
    '\n' ∉ Nat.toDigitsCore 10 fuel n ds := by
  intro fuel
  induction fuel with
  | zero => intro n ds h; simpa [Nat.toDigitsCore] using h
  | succ t ih =>
    intro n ds h
    have hcons : '\n' ∉ Nat.digitChar (n % 10) :: ds := by
      intro hm
      rcases List.mem_cons.1 hm with h1 | h1
      · exact digitChar_ne_newline _ (Nat.mod_lt _ (by decide)) h1.symm
      · exact h h1
    rw [Nat.toDigitsCore]
    split
    · exact hcons
    · exact ih _ _ hcons

theorem toString_no_newline (n : Nat) : '\n' ∉ (toString n).data :=
  toDigitsCore_no_newline (n + 1) n [] (by simp)

theorem factorsText_no_newline : ∀ l : List Nat, '\n' ∉ (factorsText l).data := by
  intro l
  induction l with
  | nil => decide
  | cons i rest ih =>
    rw [factorsText, printFactor, String.data_append, String.data_append]
    intro hm
    rcases List.mem_append.1 hm with h1 | h1
    · rcases List.mem_append.1 h1 with h2 | h2
      · exact toString_no_newline i h2
      · revert h2
        decide
    · exact ih h1

theorem headerText_no_newline (N : Nat) : '\n' ∉ (headerText N).data := by
  rw [headerText, String.data_append, String.data_append]
  intro hm
  rcases List.mem_append.1 hm with h1 | h1
  · rcases List.mem_append.1 h1 with h2 | h2
    · revert h2
      decide
    · exact toString_no_newline N h2
  · revert h1
    decide

/-! ## The contract, continued -/

/-- Claim C11 as the specification words it fails on the code: on 360, with the
stream 2, 1, 2, 1, ... and the timing text `0.000003`, the timing value is
printed right after the last factor, on the line of the header, and no
newline separates it from the factors. -/
theorem pollard_timing_on_factor_line :
    pollard_stdout 12 rndTwoOne 360 "0.000003" =
        some "Prime factors of 360: 2 2 2 3 3 5 0.000003\n\n" ∧
      specPollardText 360 [2, 2, 2, 3, 3, 5] "0.000003" =
        "Prime factors of 360: 2 2 2 3 3 5 \n0.000003\n\n" ∧
      pollard_stdout 12 rndTwoOne 360 "0.000003" ≠
        some (specPollardText 360 [2, 2, 2, 3, 3, 5] "0.000003") := by
  decide

/-- Claim C11, amended. For every input `N`, every random stream and every
returning run of `prime_pollard.c`, the timing text being any string `ts`:
the output is the header, the printed factors and `ts` on one line (no newline
occurs in the header or the factors), then a newline, then the newline of the
blank-line terminator. -/
theorem pollard_stdout_layout (fuel : Nat) (rnd : Nat → Nat) (N : Nat) (ts text : String)
    (hrun : pollard_stdout fuel rnd N ts = some text) :
    ∃ out, prime_pollard fuel rnd N = some out ∧
      text = headerText N ++ factorsText out ++ ts ++ "\n" ++ "\n" ∧
      '\n' ∉ (headerText N ++ factorsText out).data := by
  rw [pollard_stdout, Option.map_eq_some'] at hrun
  obtain ⟨out, hout, rfl⟩ := hrun
  refine ⟨out, hout, rfl, ?_⟩
  rw [String.data_append]
  intro hm
  rcases List.mem_append.1 hm with h1 | h1
  · exact headerText_no_newline N h1
  · exact factorsText_no_newline out h1

/-- Witness of C11: the run on 360 with the stream 2, 1, 2, 1, ... -/
theorem pollard_stdout_layout_witness :
    ∃ out, prime_pollard 12 rndTwoOne 360 = some out ∧
      "Prime factors of 360: 2 2 2 3 3 5 0.000003\n\n" =
        headerText 360 ++ factorsText out ++ "0.000003" ++ "\n" ++ "\n" ∧
      '\n' ∉ (headerText 360 ++ factorsText out).data :=
  pollard_stdout_layout 12 rndTwoOne 360 "0.000003"
    "Prime factors of 360: 2 2 2 3 3 5 0.000003\n\n" (by decide)

/-- Claim C12 as the specification words it fails on the code: on 17 both
trial-division programs write a space between the factor 17 and the newline,
so the line is not `Prime factors of 17: 17`. -/
theorem trial_stdout_trailing_space :
    naive_stdout 20 17 = some "Prime factors of 17: 17 \n" ∧
      optimized_stdout 20 17 = some "Prime factors of 17: 17 \n" ∧
      specTrialText 17 [17] = "Prime factors of 17: 17\n" ∧
      naive_stdout 20 17 ≠ some (specTrialText 17 [17]) ∧
      optimized_stdout 20 17 ≠ some (specTrialText 17 [17]) := by
  decide

/-- Claim C12, amended. For every `N` with `1 ≤ N < 2^64` both trial-division
programs return and write exactly the header `Prime factors of <N>: `, then
every printed factor followed by one space, then a newline.  When a factor is
printed this is the text with single spaces between the factors and one more
space before the newline; on 17 it is `Prime factors of 17: 17 ` and on 1 it
is `Prime factors of 1: `. -/
theorem trial_stdout_layout (N : Nat) (h1 : 1 ≤ N) (hN : N < 2 ^ 64) :
    ∃ (l : List Nat) (f0 : Nat),
      (∀ fuel, f0 ≤ fuel →
        naive_stdout fuel N = some (headerText N ++ factorsText l ++ "\n") ∧
        optimized_stdout fuel N = some (headerText N ++ factorsText l ++ "\n")) ∧
      l = N.primeFactorsList ∧
      (l ≠ [] → factorsText l = specFactorsText l ++ " ") ∧
      (l = [] → factorsText l = "") ∧
      (N = 17 → headerText N ++ factorsText l ++ "\n" = "Prime factors of 17: 17 \n") ∧
      (N = 1 → headerText N ++ factorsText l ++ "\n" = "Prime factors of 1: \n") := by
  obtain ⟨f0, h⟩ := prime_naive_eq N h1 hN
  obtain ⟨f1, h2⟩ := prime_optimized_eq N h1 hN
  refine ⟨N.primeFactorsList, max f0 f1, fun fuel hf => ?_, rfl, factorsText_eq_spec _, ?_, ?_, ?_⟩
  · rw [naive_stdout, optimized_stdout, h fuel (by omega), h2 fuel (by omega)]
    exact ⟨rfl, rfl⟩
  · intro hl
    rw [hl]
    rfl
  · rintro rfl
    rw [Nat.primeFactorsList_prime (by norm_num)]
    decide
  · rintro rfl
    rw [Nat.primeFactorsList_one]
    decide

/-- Witness of C12: the text written on 17 and on 1. -/
theorem trial_stdout_layout_witness :
    (∃ f0, ∀ fuel, f0 ≤ fuel → naive_stdout fuel 17 = some "Prime factors of 17: 17 \n" ∧
      optimized_stdout fuel 17 = some "Prime factors of 17: 17 \n") ∧
    (∃ f0, ∀ fuel, f0 ≤ fuel → naive_stdout fuel 1 = some "Prime factors of 1: \n" ∧
      optimized_stdout fuel 1 = some "Prime factors of 1: \n") := by
  obtain ⟨l, f0, h, -, -, -, h17, -⟩ := trial_stdout_layout 17 (by decide) (by decide)
  obtain ⟨l1, f1, h1, -, -, -, -, h01⟩ := trial_stdout_layout 1 (by decide) (by decide)
  exact ⟨⟨f0, fun fuel hf => h17 rfl ▸ h fuel hf⟩, ⟨f1, fun fuel hf => h01 rfl ▸ h1 fuel hf⟩⟩

/-- Claim C13. For all `a` and `b` the function `gcd` returns as soon as its
fuel exceeds `b`, and returns the greatest common divisor of `a` and `b`; in
particular `gcd(a, 0) = a` and `gcd(0, b) = b`, so that a zero difference gives
`d = n` in `pollard_rho`. -/
theorem gcd_correct :
    (∀ a b t : Nat, gcd (b + 1 + t) a b = some (Nat.gcd a b)) ∧
    (∀ a t : Nat, gcd (1 + t) a 0 = some a) ∧
    (∀ b t : Nat, gcd (b + 1 + t) 0 b = some b) := by
  refine ⟨fun a b t => gcd_terminates _ a b (by omega), fun a t => ?_, fun b t => ?_⟩
  · rw [gcd_terminates _ a 0 (by omega), Nat.gcd_zero_right]
  · rw [gcd_terminates _ 0 b (by omega), Nat.gcd_zero_left]

/-- Claim C14. For every `n` with `2 ≤ n < 2^64` the primality loop of
`factorize` returns (with fuel `n` or more) and leaves `isPrime` set exactly
when `n` is prime (`i <= sqrt(n)` read as `i * i ≤ n`); `factorize` then prints
`n` and returns without drawing a random value when `n` is prime, and goes on
to call `pollard_rho` on `n` when it is not. -/
theorem primality_precheck (n : Nat) (h2 : 2 ≤ n) (hN : n < 2 ^ 64) :
    ∃ b : Bool, (b = true ↔ n.Prime) ∧ ∀ fuel, n ≤ fuel →
      isPrimeLoop fuel 2 n = some b ∧
      ∀ (rnd : Nat → Nat) (k : Nat) (out : List Nat),
        factorize (fuel + 1) rnd k n out =
          if b = true then some (out ++ [n], k)
          else
            match pollard_rho fuel rnd k n with
            | none => none
            | some (divisor, k1) =>
              if divisor = 0 then none
              else
                match factorize fuel rnd k1 divisor out with
                | none => none
                | some (out1, k2) => factorize fuel rnd k2 (n / divisor) out1 := by
  obtain ⟨b, hb, hrun⟩ := isPrimeLoop_total n h2 hN
  refine ⟨b, hb, fun fuel hf => ⟨hrun fuel hf, fun rnd k out => ?_⟩⟩
  rw [factorize, if_neg (by omega), hrun fuel hf]
  cases b <;> rfl

/-- Witness of C14: 7 is prime and is printed at once, 45 is not and is handed
to `pollard_rho`. -/
theorem primality_precheck_witness :
    (∃ b : Bool, (b = true ↔ Nat.Prime 7) ∧ isPrimeLoop 7 2 7 = some b) ∧
    (∃ b : Bool, (b = true ↔ Nat.Prime 45) ∧ isPrimeLoop 45 2 45 = some b) ∧
    isPrimeLoop 7 2 7 = some true ∧ isPrimeLoop 45 2 45 = some false ∧
    factorize 8 rndTwoOne 0 7 [] = some ([7], 0) := by
  obtain ⟨b, hb, h⟩ := primality_precheck 7 (by decide) (by decide)
  obtain ⟨b2, hb2, h2⟩ := primality_precheck 45 (by decide) (by decide)
  exact ⟨⟨b, hb, (h 7 le_rfl).1⟩, ⟨b2, hb2, (h2 45 le_rfl).1⟩, by decide, by decide, by decide⟩

/-- Claim C15. For every input `N`, 0 included, and every amount of fuel: in
every state met by the loop of `prime_naive.c`, and in every state met by
`prime_optimized.c` in its even loop, in its odd loop and when the odd loop is
left, the residual times the product of the factors printed so far is `N`. -/
theorem residual_invariant (N fuel : Nat) :
    (∀ s ∈ naiveTrace fuel 2 N [], s.1 * s.2.prod = N) ∧
    (∀ s ∈ optimizedTrace fuel N, s.1 * s.2.prod = N) ∧
    (∀ l, prime_naive fuel N = some l → ∃ n1, (n1, l) ∈ naiveTrace fuel 2 N []) ∧
    (∀ n1 out1 n2 out2, evenLoop fuel N [] = some (n1, out1) →
      oddLoop fuel 3 n1 out1 = some (n2, out2) →
      (n2, out2) ∈ optimizedTrace fuel N ∧ n2 * out2.prod = N) := by
  refine ⟨fun s hs => ?_, optimizedTrace_inv fuel N, fun l hl => ?_, ?_⟩
  · simpa using naiveTrace_inv fuel 2 N [] s hs
  · exact naiveLoop_mem_trace fuel 2 N [] l hl
  · intro n1 out1 n2 out2 he ho
    have hmem : (n2, out2) ∈ optimizedTrace fuel N := by
      rw [optimizedTrace, he]
      exact List.mem_append_right _ (oddLoop_mem_trace fuel 3 n1 out1 _ ho)
    exact ⟨hmem, optimizedTrace_inv fuel N _ hmem⟩

/-- Witness of C15: the states met on input 12 by both programs, and the first
states of the even loop on input 0. -/
theorem residual_invariant_witness :
    naiveTrace 5 2 12 [] =
      [(12, []), (12, []), (6, [2]), (3, [2, 2]), (3, [2, 2]), (3, [2, 2]), (1, [2, 2, 3]),
        (1, [2, 2, 3])] ∧
    optimizedTrace 4 12 = [(12, []), (6, [2]), (3, [2, 2]), (3, [2, 2])] ∧
    optimizedTrace 3 0 = [(0, []), (0, [2]), (0, [2, 2])] ∧
    (∀ s ∈ naiveTrace 5 2 12 [], s.1 * s.2.prod = 12) ∧
    (∀ s ∈ optimizedTrace 3 0, s.1 * s.2.prod = 0) :=
  ⟨by decide, by decide, by decide, (residual_invariant 12 5).1, (residual_invariant 0 3).2.1⟩

/-- Claim C16. For every `N` with `1 ≤ N < 2^64` the even loop and the odd loop
of `prime_optimized.c` return; the residual `n2` left by the odd loop is odd,
hence never 2, so the test `n > 2` of the code holds exactly when the residual
exceeds 1; the residual is then printed as the last factor, and it is prime. -/
theorem final_residual (N : Nat) (h1 : 1 ≤ N) (hN : N < 2 ^ 64) :
    ∃ (n1 : Nat) (out1 : List Nat) (n2 : Nat) (out2 : List Nat),
      (∃ f0, ∀ fuel, f0 ≤ fuel →
        evenLoop fuel N [] = some (n1, out1) ∧ oddLoop fuel 3 n1 out1 = some (n2, out2) ∧
        prime_optimized fuel N = some (if 1 < n2 then out2 ++ [n2] else out2)) ∧
      n1 % 2 = 1 ∧ n2 % 2 = 1 ∧ n2 ≠ 2 ∧ (n2 > 2 ↔ 1 < n2) ∧ (1 < n2 → n2.Prime) := by
  obtain ⟨n1, out1, f0, hrun, -, hn1, hdvd, hmin1⟩ :=
    divideOut_step 2 N le_rfl h1 (fun p hp _ => hp.two_le) []
  have hle : n1 ≤ N := Nat.le_of_dvd (by omega) hdvd
  have hodd : n1 % 2 = 1 := by
    by_contra hc
    have := hmin1 2 Nat.prime_two (Nat.dvd_of_mod_eq_zero (by omega))
    omega
  obtain ⟨n2, out2, f1, hrun1, -, hodd2, hpr, -⟩ :=
    oddLoop_spec (n1 + 1 - 3) 3 n1 out1 le_rfl le_rfl (by decide) hn1 hodd (by omega) hmin1
  have hiff : n2 > 2 ↔ 1 < n2 := by omega
  refine ⟨n1, out1, n2, out2, ⟨max f0 f1, fun fuel hf => ?_⟩, hodd, hodd2, by omega, hiff, ?_⟩
  · have he : evenLoop fuel N [] = some (n1, out1) := by
      rw [evenLoop_eq_divideOut]
      exact hrun fuel (by omega)
    have ho := hrun1 fuel (by omega)
    refine ⟨he, ho, ?_⟩
    rw [prime_optimized, he]
    simp only []
    rw [ho]
    simp only []
    by_cases h2 : n2 > 2
    · rw [if_pos h2, if_pos (hiff.1 h2)]
    · rw [if_neg h2, if_neg (fun h => h2 (hiff.2 h))]
  · intro hgt
    rcases hpr with h | h
    · omega
    · exact h

/-- Witness of C16: on 84 the odd loop leaves the residual 7, which is printed
last; on 18 it leaves 1, which is not printed. -/
theorem final_residual_witness :
    (∃ (n1 : Nat) (out1 : List Nat) (n2 : Nat) (out2 : List Nat),
      (∃ f0, ∀ fuel, f0 ≤ fuel →
        evenLoop fuel 84 [] = some (n1, out1) ∧ oddLoop fuel 3 n1 out1 = some (n2, out2) ∧
        prime_optimized fuel 84 = some (if 1 < n2 then out2 ++ [n2] else out2)) ∧
      n1 % 2 = 1 ∧ n2 % 2 = 1 ∧ n2 ≠ 2 ∧ (n2 > 2 ↔ 1 < n2) ∧ (1 < n2 → n2.Prime)) ∧
    oddLoop 5 3 21 [2, 2] = some (7, [2, 2, 3]) ∧ prime_optimized 5 84 = some [2, 2, 3, 7] ∧
    oddLoop 5 3 9 [2] = some (1, [2, 3, 3]) ∧ prime_optimized 5 18 = some [2, 3, 3] :=
  ⟨final_residual 84 (by decide) (by decide), by decide, by decide, by decide, by decide⟩

/-- Claim C17 as the specification words it fails on the code: on 4 the calls
of `factorize` nest two deep (`factorize(4)` calls `factorize(2)`), and 4 has
one distinct prime factor. -/
theorem depth_exceeds_distinct_primes :
    factorizeDepth 5 rndTwoOne 0 4 [] = some ([2, 2], 0, 2) ∧
      factorize 5 rndTwoOne 0 4 [] = some ([2, 2], 0) ∧
      (4 : Nat).primeFactors.card = 1 ∧ (4 : Nat).primeFactors.card < 2 := by
  have h4 : (4 : Nat).primeFactors = {2} := by
    rw [show (4 : Nat) = 2 ^ 2 by norm_num, Nat.primeFactors_prime_pow (by norm_num) Nat.prime_two]
  refine ⟨by decide, by decide, ?_, ?_⟩ <;> rw [h4] <;> simp

/-- Claim C17, amended. For every `N` with `1 < N < 2^64` and every returning
run of `factorize` on `N`, the largest number of calls of `factorize` nested
in one another, the first call counted, is at most the number of prime
factors of `N` counted with multiplicity, which is below 64. -/
theorem depth_le_factor_count (N : Nat) (h1 : 1 < N) (hN : N < 2 ^ 64) (fuel : Nat)
    (rnd : Nat → Nat) (k : Nat) (out0 out : List Nat) (k1 d : Nat)
    (hrun : factorizeDepth fuel rnd k N out0 = some (out, k1, d)) :
    factorize fuel rnd k N out0 = some (out, k1) ∧ 1 ≤ d ∧
      d ≤ N.primeFactorsList.length ∧ N.primeFactorsList.length < 64 := by
  have hfac : factorize fuel rnd k N out0 = some (out, k1) := by
    rw [← factorizeDepth_eq, hrun]
    rfl
  obtain ⟨l, -, hprod, hpr, hd1, hdle⟩ :=
    factorizeDepth_post fuel rnd k N out0 out k1 d (by omega) hN hrun
  have hperm := Nat.primeFactorsList_unique hprod hpr
  have hlen : l.length = N.primeFactorsList.length := hperm.length_eq
  have hpos : 1 ≤ l.length := by
    rcases l with _ | ⟨a, l⟩
    · simp at hprod
      omega
    · simp
  have hpow : 2 ^ l.length ≤ N := by
    rw [← hprod]
    exact two_pow_length_le_prod l (fun p hp => (hpr p hp).two_le)
  have hlt : l.length < 64 :=
    (Nat.pow_lt_pow_iff_right (by norm_num : 1 < 2)).1 (lt_of_le_of_lt hpow hN)
  refine ⟨hfac, hd1, by omega, by omega⟩

/-- Witness of C17: on 360, with the stream 2, 1, 2, 1, ..., the calls nest 6
deep, and 360 has 6 prime factors counted with multiplicity. -/
theorem depth_le_factor_count_witness :
    factorizeDepth 12 rndTwoOne 0 360 [] = some ([2, 2, 2, 3, 3, 5], 4, 6) ∧
      (factorize 12 rndTwoOne 0 360 [] = some ([2, 2, 2, 3, 3, 5], 4) ∧ 1 ≤ 6 ∧
        6 ≤ (360 : Nat).primeFactorsList.length ∧ (360 : Nat).primeFactorsList.length < 64) :=
  ⟨by decide, depth_le_factor_count 360 (by decide) (by decide) 12 rndTwoOne 0 []
    [2, 2, 2, 3, 3, 5] 4 6 (by decide)⟩

/-- Claim C18. For every `n > 1`, every start `x < n` and every constant `c`,
the loop `while(d == 1)` of `pollard_rho` entered with `y = x` computes a value
`d ≠ 1` at some pass `m` with `1 ≤ m ≤ n` (all earlier passes giving 1), and
is left there: with fuel above `2 * n` it returns `d`, or, when `d = n`, hands
over to a new call of `pollard_rho` with the fuel that is left. -/
theorem rho_attempt_ends (n x c : Nat) (h1 : 1 < n) (hx : x < n) (rnd : Nat → Nat) (k : Nat) :
    ∃ m, 1 ≤ m ∧ m ≤ n ∧ rhoD n c x x m ≠ 1 ∧ (∀ j, 1 ≤ j → j < m → rhoD n c x x j = 1) ∧
      ∀ fuel, 2 * n < fuel →
        rhoLoop fuel rnd k n x x c =
          if rhoD n c x x m = n then pollard_rho (fuel - m) rnd k n
          else some (rhoD n c x x m, k) :=
  rho_attempt rnd k n c x h1 hx

/-- Witness of C18: on 45 with `x = 2`, `c = 1` the first pass gives `d = 3`,
which is returned; on 9 with `x = 0`, `c = 0` the first pass gives `d = 9`, and
the attempt ends in a new call. -/
theorem rho_attempt_ends_witness :
    (∃ m, 1 ≤ m ∧ m ≤ 45 ∧ rhoD 45 1 2 2 m ≠ 1 ∧ (∀ j, 1 ≤ j → j < m → rhoD 45 1 2 2 j = 1) ∧
      ∀ fuel, 2 * 45 < fuel →
        rhoLoop fuel rndTwoOne 2 45 2 2 1 =
          if rhoD 45 1 2 2 m = 45 then pollard_rho (fuel - m) rndTwoOne 2 45
          else some (rhoD 45 1 2 2 m, 2)) ∧
    rhoD 45 1 2 2 1 = 3 ∧ rhoLoop 91 rndTwoOne 2 45 2 2 1 = some (3, 2) ∧
    rhoD 9 0 0 0 1 = 9 ∧ rhoLoop 19 rndTwoOne 2 9 0 0 0 = pollard_rho 18 rndTwoOne 2 9 :=
  ⟨rho_attempt_ends 45 2 1 (by decide) (by decide) rndTwoOne 2, by decide, by decide, by decide,
    by decide⟩

/-- Claim C19. For every odd prime `p`, every random stream and every amount
of fuel, `pollard_rho` does not return on `p`: every value of `d` it computes
divides `p`, so is 1 (the loop goes on) or `p` (a new attempt starts). -/
theorem pollard_rho_prime_never_returns (p : Nat) (hp : p.Prime) (hodd : p % 2 = 1)
    (fuel : Nat) (rnd : Nat → Nat) (k : Nat) :
    pollard_rho fuel rnd k p = none ∧
      ∀ x y c m, rhoD p c x y m = 1 ∨ rhoD p c x y m = p := by
  refine ⟨rho_none_of_prime p hp hodd fuel rnd k, fun x y c m => ?_⟩
  exact (Nat.dvd_prime hp).1 (Nat.gcd_dvd_right _ _)

/-- Witness of C19: on the prime 7, with the stream 2, 1, 2, 1, ... and fuel
40, `pollard_rho` has not returned. -/
theorem pollard_rho_prime_never_returns_witness :
    Nat.Prime 7 ∧ pollard_rho 40 rndTwoOne 0 7 = none ∧
      ∀ x y c m, rhoD 7 c x y m = 1 ∨ rhoD 7 c x y m = 7 :=
  ⟨by norm_num, pollard_rho_prime_never_returns 7 (by norm_num) (by decide) 40 rndTwoOne 0⟩
end PrimeFac
